import Mathlib

/-!
# Deferred-action scheduler of `Source/misc.h`

A shallow embedding of `delayed_action_handler` (misc.h lines 75-94).

* `std::chrono::steady_clock::time_point` is an integer tick count (one tick is
  one nanosecond); every call of `steady_clock::now()` in the source becomes an
  explicit clock reading handed to the embedded function.
* `std::map<time_point, std::function<void()>>` is an association list kept in
  strictly ascending key order (`well_formed`); `emplace`, `begin` and `erase`
  are the list operations below.
* A `std::function<void()>` is described by what it does to the scheduler
  while it runs: a finite script of `insert` calls on the same handler, of
  effects elsewhere, ended by a normal return or by a thrown exception. Each
  `insert` call of a script carries the number of ticks by which the clock has
  advanced since the previous reading, so clock readings never decrease
  (`steady_clock` is monotonic). A stored function that calls `update` on the
  handler running it, or that does not end, is outside this description.
* `update_result.executed` and `update_result.inserted` record what one
  `update` call did (which stored functions it called, which `insert` calls
  those made); they are there to state properties and steer nothing.
* The `float` argument of `insert` is carried as the rational number it
  denotes. `round_float` is the rounding of IEEE binary32 (24 significant
  bits, round to nearest, ties to even, gradual underflow): the argument is
  rounded when it becomes the parameter `wait_time` (a `float` is left as it
  is), and the product `wait_time*1000` is rounded again, as single-precision
  arithmetic does. `int(...)` then truncates toward zero; C++ defines the
  conversion only while the result fits the 32-bit `int`, and `float_to_int`
  yields `INT_MIN` outside that range, as the x86-64 conversion does.

The class `timer` (misc.h lines 32-60) is embedded the same way: the clock
reading is an argument, `until_now` yields the rational number of seconds that
the `double` quotient approximates, and what the destructor sends to
`std::cout` is the list of the items it inserts into the stream.
-/

/-- Type `std::chrono::steady_clock::time_point`: ticks (nanoseconds) since the clock epoch. -/
abbrev time_point := Int

/-- The behaviour of a `std::function<void()>` stored in the handler, as seen
from the handler: `ret` returns, `raise` throws, `effect m next` does something
outside the handler (identified by the marker `m`) and goes on, and
`insert dt wait_time lambda next` calls `insert(wait_time, lambda)` on the
handler that is running it, `dt` ticks after the previous clock reading, and
goes on. -/
inductive action where
  | ret : action
  | raise : action
  | effect (marker : Nat) (next : action) : action
  | insert (dt : Nat) (wait_time : ℚ) (lambda : action) (next : action) : action
deriving DecidableEq

/-- The member `actions`: the entries of the `std::map`, smallest key first. -/
abbrev action_map := List (time_point × action)

/-- Class `delayed_action_handler`: its only data member is the map `actions`. -/
structure delayed_action_handler where
  actions : action_map
deriving DecidableEq

/-- The representation invariant of `std::map`: keys strictly ascending, hence unique. -/
def well_formed (m : action_map) : Prop :=
  m.Pairwise (fun x y => x.1 < y.1)

instance (m : action_map) : Decidable (well_formed m) := by
  unfold well_formed; infer_instance

/-- The loop of `floor_log2`: the number of times `n` can be halved before it drops below 2; one
unit of fuel is spent per halving. -/
def log2_loop : Nat → Nat → Nat
  | 0, _ => 0
  | fuel + 1, n => if n < 2 then 0 else log2_loop fuel (n / 2) + 1

/-- The position of the leading bit of `n`: the largest `k` with `2 ^ k ≤ n` (0 for `n = 0`). -/
def floor_log2 (n : Nat) : Nat := log2_loop n n

/-- The power `2 ^ e` for an integer exponent, as a rational. -/
def two_pow (e : Int) : ℚ :=
  if 0 ≤ e then ((2 ^ e.toNat : Nat) : ℚ) else 1 / ((2 ^ (-e).toNat : Nat) : ℚ)

/-- The binary exponent of a non-zero rational `x`: the `e` with `2 ^ e ≤ |x| < 2 ^ (e + 1)`. -/
def binary_exponent (x : ℚ) : Int :=
  if |x| < two_pow ((floor_log2 x.num.natAbs : Int) - (floor_log2 x.den : Int))
  then (floor_log2 x.num.natAbs : Int) - (floor_log2 x.den : Int) - 1
  else (floor_log2 x.num.natAbs : Int) - (floor_log2 x.den : Int)

/-- Rounding to the nearest integer, a tie going to the even one. -/
def round_half_even (y : ℚ) : Int :=
  if y - ⌊y⌋ < 1 / 2 then ⌊y⌋
  else if 1 / 2 < y - ⌊y⌋ then ⌊y⌋ + 1
  else if ⌊y⌋ % 2 = 0 then ⌊y⌋ else ⌊y⌋ + 1

/-- The spacing of the single-precision numbers around `x`: `2 ^ (e - 23)` for the binary
exponent `e` of `x` (24 significant bits), and `2 ^ (-149)` below the normal range. -/
def float_ulp (x : ℚ) : ℚ := two_pow (max (binary_exponent x - 23) (-149))

/-- The value of type `float` (IEEE binary32, round to nearest, ties to even) that a real
number is rounded to, as the rational it denotes. A result beyond the largest `float`, which
is an infinity in binary32, is left as the rounded rational; it is beyond the range of `int`
either way. -/
def round_float (x : ℚ) : ℚ :=
  if x = 0 then 0 else (round_half_even (x / float_ulp x) : ℚ) * float_ulp x

/-- The conversion `int(x)` of a `float`: truncation toward zero while the result fits the
32-bit `int`. Outside that range C++ leaves the conversion undefined; the value here is the
one the x86-64 conversion instruction yields, `INT_MIN`. -/
def float_to_int (x : ℚ) : Int :=
  if -2147483648 ≤ Int.tdiv x.num x.den ∧ Int.tdiv x.num x.den ≤ 2147483647
  then Int.tdiv x.num x.den else -2147483648

/-- The duration `std::chrono::milliseconds(n)` converted to clock ticks. -/
def milliseconds (n : Int) : Int := n * 1000000

/-- The value of the expression `wait_time*1000` in `insert`: the argument as the `float`
parameter holds it, times 1000, the product rounded to `float`. -/
def delay_product (wait_time : ℚ) : ℚ := round_float (round_float wait_time * 1000)

/-- The key computed by `insert`: `now + milliseconds(int(wait_time*1000))`. -/
def fire_instant (now : time_point) (wait_time : ℚ) : time_point :=
  now + milliseconds (float_to_int (delay_product wait_time))

/-- The call `std::map::emplace(key, value)`: the pair is stored at its place in key
order unless the key is already present, in which case the map is left as it is. -/
def emplace (key : time_point) (value : action) : action_map → action_map
  | [] => [(key, value)]
  | (k, v) :: rest =>
    if key < k then (key, value) :: (k, v) :: rest
    else if key = k then (k, v) :: rest
    else (k, v) :: emplace key value rest

/-- The call `std::map::erase(iter)` for an iterator that points at the entry of key `key`. -/
def erase (key : time_point) : action_map → action_map
  | [] => []
  | (k, v) :: rest => if k = key then rest else (k, v) :: erase key rest

/-- The method `delayed_action_handler::insert` (misc.h line 79), `now` being the value that
`steady_clock::now()` returns inside it. -/
def delayed_action_handler.insert (self : delayed_action_handler) (now : time_point)
    (wait_time : ℚ) (lambda : action) : delayed_action_handler :=
  ⟨emplace (fire_instant now wait_time) lambda self.actions⟩

/-- How a call ended: by returning, or by an exception leaving it. -/
inductive outcome where
  | returned : outcome
  | threw : outcome
deriving DecidableEq

/-- The arguments of one `insert` call, with the clock reading taken inside it. -/
structure insert_call where
  now : time_point
  wait_time : ℚ
  lambda : action
deriving DecidableEq

/-- What running one stored function leaves behind: how it ended, the last clock
reading, the map, and the `insert` calls it made, in order. -/
structure call_result where
  status : outcome
  clock : time_point
  actions : action_map
  inserted : List insert_call
deriving DecidableEq

/-- The call `iter->second()`: runs the body of a stored function against the map,
starting from the last clock reading `clock`. -/
def call : action → time_point → action_map → call_result
  | action.ret, clock, m => ⟨outcome.returned, clock, m, []⟩
  | action.raise, clock, m => ⟨outcome.threw, clock, m, []⟩
  | action.effect _ next, clock, m => call next clock m
  | action.insert dt wait_time lambda next, clock, m =>
    let now := clock + dt
    let r := call next now (emplace (fire_instant now wait_time) lambda m)
    ⟨r.status, r.clock, r.actions, ⟨now, wait_time, lambda⟩ :: r.inserted⟩

/-- What one `update()` call leaves behind: how it ended, the entries whose function it
called (in call order), the `insert` calls those functions made, the last clock reading
and the map. -/
structure update_result where
  status : outcome
  executed : List (time_point × action)
  inserted : List insert_call
  clock : time_point
  actions : action_map
deriving DecidableEq

/-- The loop of `update` (misc.h lines 84-92) for the snapshot `time_over`; one unit of
fuel is spent per pass through the label `again`. -/
def update_loop : Nat → time_point → time_point → action_map → Option update_result
  | 0, _, _, _ => none
  | fuel + 1, time_over, clock, m =>
    match m with
    | [] => some ⟨outcome.returned, [], [], clock, []⟩
    | (first, second) :: rest =>
      if first ≤ time_over then
        let c := call second clock ((first, second) :: rest)
        match c.status with
        | outcome.threw =>
          some ⟨outcome.threw, [(first, second)], c.inserted, c.clock, c.actions⟩
        | outcome.returned =>
          match update_loop fuel time_over c.clock (erase first c.actions) with
          | none => none
          | some r =>
            some ⟨r.status, (first, second) :: r.executed, c.inserted ++ r.inserted,
              r.clock, r.actions⟩
      else some ⟨outcome.returned, [], [], clock, (first, second) :: rest⟩

/-- The number of steps the body of a stored function, and of every function it may
insert, can take. -/
def action.size : action → Nat
  | action.ret => 1
  | action.raise => 1
  | action.effect _ next => 1 + next.size
  | action.insert _ _ lambda next => 1 + lambda.size + next.size

/-- The total size of the functions held in a map: a bound on the passes `update` makes. -/
def weight : action_map → Nat
  | [] => 0
  | (_, v) :: rest => v.size + weight rest

/-- The method `delayed_action_handler::update` (misc.h lines 81-93), `time_over` being the
value that `steady_clock::now()` returns at its first line. -/
def delayed_action_handler.update (self : delayed_action_handler) (time_over : time_point) :
    Option update_result :=
  update_loop (weight self.actions + 1) time_over time_over self.actions

/-- The body of the function makes no `insert` call and does not throw. -/
def action.plain : action → Bool
  | action.ret => true
  | action.raise => false
  | action.effect _ next => next.plain
  | action.insert _ _ _ _ => false

/-- Every `insert` call the function makes, and every one made by a function it inserts,
has a delay `wait_time ≥ 0` whose product `wait_time*1000` is within the range of `int`. -/
def action.delays_in_range : action → Bool
  | action.ret => true
  | action.raise => true
  | action.effect _ next => next.delays_in_range
  | action.insert _ wait_time lambda next =>
    decide (0 ≤ wait_time) && decide (delay_product wait_time < 2147483648) &&
      lambda.delays_in_range && next.delays_in_range

/-- One call made on a handler by its owner: `update()` entered when the clock reads
`time_over`, or `insert(wait_time, lambda)` entered when the clock reads `now`. -/
inductive request where
  | poll (time_over : time_point) : request
  | insert (now : time_point) (wait_time : ℚ) (lambda : action) : request
deriving DecidableEq

/-- A sequence of calls made one after the other on one handler; the result lists, for each
`update` call in turn, the entries that call executed, in order. -/
def run_calls : List request → delayed_action_handler → Option (List (List (time_point × action)))
  | [], _ => some []
  | request.insert now wait_time lambda :: rest, self =>
    run_calls rest (self.insert now wait_time lambda)
  | request.poll time_over :: rest, self =>
    match self.update time_over with
    | none => none
    | some r =>
      match run_calls rest ⟨r.actions⟩ with
      | none => none
      | some trace => some (r.executed :: trace)

/-- Class `timer` (misc.h lines 32-60): the message `str`, the instant `start` and the flag
`output`. -/
structure timer where
  str : String
  start : time_point
  output : Bool
deriving DecidableEq

/-- The method `timer::reset` (misc.h line 49), `now` being the value that
`steady_clock::now()` returns inside it. -/
def timer.reset (self : timer) (now : time_point) : timer :=
  { self with start := now }

/-- The constructor `timer(std::string str,bool output=true)` (misc.h line 39); `output` is
`none` when the call leaves the second argument out, and the default of the declaration
applies. The member `start` is value-initialised and then set by `reset()`. -/
def timer.ctor (str : String) (output : Option Bool) (now : time_point) : timer :=
  (timer.mk str 0 (output.getD true)).reset now

/-- The constructor `timer()` (misc.h line 40). -/
def timer.ctor_noarg (now : time_point) : timer :=
  (timer.mk "" 0 false).reset now

/-- The conversion `std::chrono::duration_cast<std::chrono::microseconds>` of a number of
clock ticks: division by 1000 truncated toward zero. -/
def duration_cast_microseconds (ticks : Int) : Int := Int.tdiv ticks 1000

/-- The method `timer::until_now` (misc.h lines 52-56): the microseconds from `start` to the
clock reading `now`, divided by 1000000.0. -/
def timer.until_now (self : timer) (now : time_point) : ℚ :=
  ((duration_cast_microseconds (now - self.start) : Int) : ℚ) / 1000000

/-- One item inserted into `std::cout` with `<<`: a `double`, a string, or `std::endl`. -/
inductive stream_item where
  | number (value : ℚ) : stream_item
  | text (s : String) : stream_item
  | endl : stream_item
deriving DecidableEq

/-- The destructor `~timer` (misc.h lines 41-46), entered when the clock reads `now`: the
items it inserts into `std::cout`, in order. -/
def timer.destructor (self : timer) (now : time_point) : List stream_item :=
  if !self.output then []
  else [stream_item.number (self.until_now now), stream_item.text " <- ",
    stream_item.text self.str, stream_item.endl]

/-! ## The map operations -/

theorem mem_emplace (key : time_point) (value : action) (m : action_map)
    (e : time_point × action) (h : e ∈ emplace key value m) : e ∈ m ∨ e = (key, value) := by
  induction m with
  | nil => simp [emplace] at h; exact Or.inr h
  | cons hd tl ih =>
    obtain ⟨k, v⟩ := hd
    simp only [emplace] at h
    split_ifs at h with h1 h2
    · rcases List.mem_cons.mp h with h | h
      · exact Or.inr h
      · exact Or.inl h
    · exact Or.inl h
    · rcases List.mem_cons.mp h with h | h
      · exact Or.inl (h ▸ List.mem_cons_self _ _)
      · rcases ih h with h | h
        · exact Or.inl (List.mem_cons_of_mem _ h)
        · exact Or.inr h

theorem mem_emplace_of_mem (key : time_point) (value : action) (m : action_map)
    (e : time_point × action) (h : e ∈ m) : e ∈ emplace key value m := by
  induction m with
  | nil => cases h
  | cons hd tl ih =>
    obtain ⟨k, v⟩ := hd
    simp only [emplace]
    split_ifs with h1 h2
    · exact List.mem_cons_of_mem _ h
    · exact h
    · rcases List.mem_cons.mp h with h | h
      · exact h ▸ List.mem_cons_self _ _
      · exact List.mem_cons_of_mem _ (ih h)

theorem key_mem_emplace (key : time_point) (value : action) (m : action_map) :
    key ∈ (emplace key value m).map Prod.fst := by
  induction m with
  | nil => simp [emplace]
  | cons hd tl ih =>
    obtain ⟨k, v⟩ := hd
    simp only [emplace]
    split_ifs with h1 h2
    · simp
    · simp [h2]
    · simp only [List.map_cons, List.mem_cons]; exact Or.inr ih

theorem well_formed_emplace (key : time_point) (value : action) (m : action_map)
    (h : well_formed m) : well_formed (emplace key value m) := by
  induction m with
  | nil => simp [emplace, well_formed]
  | cons hd tl ih =>
    obtain ⟨k, v⟩ := hd
    unfold well_formed at h ih ⊢
    rw [List.pairwise_cons] at h
    simp only [emplace]
    split_ifs with h1 h2
    · rw [List.pairwise_cons]
      refine ⟨?_, List.pairwise_cons.mpr h⟩
      intro e he
      rcases List.mem_cons.mp he with he | he
      · rw [he]; exact h1
      · exact lt_trans h1 (h.1 e he)
    · exact List.pairwise_cons.mpr h
    · rw [List.pairwise_cons]
      refine ⟨?_, ih h.2⟩
      intro e he
      rcases mem_emplace key value tl e he with he | he
      · exact h.1 e he
      · rw [he]; exact lt_of_le_of_ne (not_lt.mp h1) (Ne.symm h2)

theorem mem_erase (key : time_point) (m : action_map) (e : time_point × action)
    (h : e ∈ erase key m) : e ∈ m := by
  induction m with
  | nil => simp [erase] at h
  | cons hd tl ih =>
    obtain ⟨k, v⟩ := hd
    simp only [erase] at h
    split_ifs at h with h1
    · exact List.mem_cons_of_mem _ h
    · rcases List.mem_cons.mp h with h | h
      · exact h ▸ List.mem_cons_self _ _
      · exact List.mem_cons_of_mem _ (ih h)

theorem mem_erase_of_ne (key : time_point) (m : action_map) (e : time_point × action)
    (h : e ∈ m) (hne : e.1 ≠ key) : e ∈ erase key m := by
  induction m with
  | nil => cases h
  | cons hd tl ih =>
    obtain ⟨k, v⟩ := hd
    simp only [erase]
    split_ifs with h1
    · rcases List.mem_cons.mp h with h | h
      · exact absurd (by rw [h]; exact h1) hne
      · exact h
    · rcases List.mem_cons.mp h with h | h
      · exact h ▸ List.mem_cons_self _ _
      · exact List.mem_cons_of_mem _ (ih h)

theorem well_formed_erase (key : time_point) (m : action_map) (h : well_formed m) :
    well_formed (erase key m) := by
  induction m with
  | nil => simp [erase, well_formed]
  | cons hd tl ih =>
    obtain ⟨k, v⟩ := hd
    unfold well_formed at h ih ⊢
    rw [List.pairwise_cons] at h
    simp only [erase]
    split_ifs with h1
    · exact h.2
    · rw [List.pairwise_cons]
      exact ⟨fun e he => h.1 e (mem_erase key tl e he), ih h.2⟩

theorem key_ne_of_mem_erase (key : time_point) (m : action_map) (h : well_formed m)
    (e : time_point × action) (he : e ∈ erase key m) : e.1 ≠ key := by
  induction m with
  | nil => simp [erase] at he
  | cons hd tl ih =>
    obtain ⟨k, v⟩ := hd
    unfold well_formed at h ih
    rw [List.pairwise_cons] at h
    simp only [erase] at he
    split_ifs at he with h1
    · rw [← h1]; exact ne_of_gt (h.1 e he)
    · rcases List.mem_cons.mp he with he | he
      · rw [he]; exact h1
      · exact ih h.2 he

theorem weight_emplace_le (key : time_point) (value : action) (m : action_map) :
    weight (emplace key value m) ≤ weight m + value.size := by
  induction m with
  | nil => simp [emplace, weight]
  | cons hd tl ih =>
    obtain ⟨k, v⟩ := hd
    simp only [emplace]
    split_ifs with h1 h2
    · simp only [weight]; omega
    · simp only [weight]; omega
    · simp only [weight]; omega

theorem weight_erase (key : time_point) (value : action) (m : action_map)
    (h : well_formed m) (he : (key, value) ∈ m) :
    weight (erase key m) + value.size = weight m := by
  induction m with
  | nil => cases he
  | cons hd tl ih =>
    obtain ⟨k, v⟩ := hd
    unfold well_formed at h ih
    rw [List.pairwise_cons] at h
    simp only [erase]
    split_ifs with h1
    · rcases List.mem_cons.mp he with he | he
      · have hv : value = v := (Prod.mk.inj he).2
        simp only [weight, hv]; omega
      · exact absurd h1 (ne_of_lt (h.1 _ he))
    · rcases List.mem_cons.mp he with he | he
      · exact absurd (Prod.mk.inj he).1.symm h1
      · have := ih h.2 he
        simp only [weight]; omega

/-! ## Running one stored function -/

theorem call_plain (a : action) (clock : time_point) (m : action_map) (h : a.plain = true) :
    call a clock m = ⟨outcome.returned, clock, m, []⟩ := by
  induction a with
  | ret => rfl
  | raise => simp [action.plain] at h
  | effect marker next ih => simp only [action.plain] at h; simp only [call]; exact ih h
  | insert dt w lam next _ _ => simp [action.plain] at h

theorem call_weight (a : action) (clock : time_point) (m : action_map) :
    weight (call a clock m).actions + 1 ≤ weight m + a.size := by
  induction a generalizing clock m with
  | ret => simp [call, action.size]
  | raise => simp [call, action.size]
  | effect marker next ih =>
    have := ih clock m
    simp only [call, action.size]; omega
  | insert dt w lam next _ ih =>
    have h1 := ih (clock + dt) (emplace (fire_instant (clock + dt) w) lam m)
    have h2 := weight_emplace_le (fire_instant (clock + dt) w) lam m
    simp only [call, action.size]; omega

theorem call_mem_of_mem (a : action) (clock : time_point) (m : action_map)
    (e : time_point × action) (h : e ∈ m) : e ∈ (call a clock m).actions := by
  induction a generalizing clock m with
  | ret => exact h
  | raise => exact h
  | effect marker next ih => simp only [call]; exact ih clock m h
  | insert dt w lam next _ ih =>
    simp only [call]
    exact ih _ _ (mem_emplace_of_mem _ _ _ _ h)

theorem call_well_formed (a : action) (clock : time_point) (m : action_map)
    (h : well_formed m) : well_formed (call a clock m).actions := by
  induction a generalizing clock m with
  | ret => exact h
  | raise => exact h
  | effect marker next ih => simp only [call]; exact ih clock m h
  | insert dt w lam next _ ih =>
    simp only [call]
    exact ih _ _ (well_formed_emplace _ _ _ h)

theorem call_mem (a : action) (clock : time_point) (m : action_map)
    (e : time_point × action) (h : e ∈ (call a clock m).actions) :
    e ∈ m ∨ ∃ ic ∈ (call a clock m).inserted,
      e = (fire_instant ic.now ic.wait_time, ic.lambda) := by
  induction a generalizing clock m with
  | ret => exact Or.inl h
  | raise => exact Or.inl h
  | effect marker next ih => simp only [call] at h ⊢; exact ih clock m h
  | insert dt w lam next _ ih =>
    simp only [call] at h ⊢
    rcases ih _ _ h with h1 | ⟨ic, hic, h1⟩
    · rcases mem_emplace _ _ _ _ h1 with h2 | h2
      · exact Or.inl h2
      · exact Or.inr ⟨⟨clock + dt, w, lam⟩, List.mem_cons_self _ _, h2⟩
    · exact Or.inr ⟨ic, List.mem_cons_of_mem _ hic, h1⟩

theorem call_clock_le (a : action) (clock : time_point) (m : action_map) :
    clock ≤ (call a clock m).clock := by
  induction a generalizing clock m with
  | ret => exact le_refl _
  | raise => exact le_refl _
  | effect marker next ih => simp only [call]; exact ih clock m
  | insert dt w lam next _ ih =>
    simp only [call]
    have := ih (clock + dt) (emplace (fire_instant (clock + dt) w) lam m)
    linarith [Int.ofNat_nonneg dt]

theorem call_inserted_now (a : action) (clock : time_point) (m : action_map)
    (ic : insert_call) (h : ic ∈ (call a clock m).inserted) : clock ≤ ic.now := by
  induction a generalizing clock m with
  | ret => simp [call] at h
  | raise => simp [call] at h
  | effect marker next ih => simp only [call] at h; exact ih clock m h
  | insert dt w lam next _ ih =>
    simp only [call] at h
    rcases List.mem_cons.mp h with h | h
    · rw [h]; simp
    · have := ih _ _ h
      linarith [Int.ofNat_nonneg dt]

theorem call_inserted_key_mem (a : action) (clock : time_point) (m : action_map)
    (ic : insert_call) (h : ic ∈ (call a clock m).inserted) :
    fire_instant ic.now ic.wait_time ∈ (call a clock m).actions.map Prod.fst := by
  induction a generalizing clock m with
  | ret => simp [call] at h
  | raise => simp [call] at h
  | effect marker next ih => simp only [call] at h ⊢; exact ih clock m h
  | insert dt w lam next _ ih =>
    simp only [call] at h ⊢
    rcases List.mem_cons.mp h with h | h
    · rw [h]
      obtain ⟨e, he, hk⟩ := List.mem_map.mp
        (key_mem_emplace (fire_instant (clock + dt) w) lam m)
      exact List.mem_map.mpr ⟨e, call_mem_of_mem _ _ _ _ he, hk⟩
    · exact ih _ _ h

/-! ## The loop of `update` -/

theorem update_loop_cases (n : Nat) (T clock : time_point) (m : action_map) (r : update_result)
    (h : update_loop (n + 1) T clock m = some r) :
    (m = [] ∧ r = ⟨outcome.returned, [], [], clock, []⟩) ∨
    (∃ first second rest, m = (first, second) :: rest ∧ T < first ∧
      r = ⟨outcome.returned, [], [], clock, m⟩) ∨
    (∃ first second rest, m = (first, second) :: rest ∧ first ≤ T ∧
      (call second clock m).status = outcome.threw ∧
      r = ⟨outcome.threw, [(first, second)], (call second clock m).inserted,
        (call second clock m).clock, (call second clock m).actions⟩) ∨
    (∃ first second rest r', m = (first, second) :: rest ∧ first ≤ T ∧
      (call second clock m).status = outcome.returned ∧
      update_loop n T (call second clock m).clock (erase first (call second clock m).actions)
        = some r' ∧
      r = ⟨r'.status, (first, second) :: r'.executed,
        (call second clock m).inserted ++ r'.inserted, r'.clock, r'.actions⟩) := by
  cases m with
  | nil =>
    simp only [update_loop, Option.some.injEq] at h
    exact Or.inl ⟨rfl, h.symm⟩
  | cons hd rest =>
    obtain ⟨first, second⟩ := hd
    simp only [update_loop] at h
    by_cases hdue : first ≤ T
    · rw [if_pos hdue] at h
      cases hs : (call second clock ((first, second) :: rest)).status with
      | threw =>
        simp only [hs, Option.some.injEq] at h
        exact Or.inr (Or.inr (Or.inl ⟨first, second, rest, rfl, hdue, hs, h.symm⟩))
      | returned =>
        simp only [hs] at h
        cases hr : update_loop n T (call second clock ((first, second) :: rest)).clock
            (erase first (call second clock ((first, second) :: rest)).actions) with
        | none => simp [hr] at h
        | some r' =>
          simp only [hr, Option.some.injEq] at h
          exact Or.inr (Or.inr (Or.inr ⟨first, second, rest, r', rfl, hdue, hs, hr, h.symm⟩))
    · rw [if_neg hdue] at h
      simp only [Option.some.injEq] at h
      exact Or.inr (Or.inl ⟨first, second, rest, rfl, not_le.mp hdue, h.symm⟩)

theorem update_loop_total (fuel : Nat) (T clock : time_point) (m : action_map)
    (hwf : well_formed m) (hfuel : weight m < fuel) :
    ∃ r, update_loop fuel T clock m = some r := by
  induction fuel generalizing clock m with
  | zero => omega
  | succ n ih =>
    cases m with
    | nil => exact ⟨_, rfl⟩
    | cons hd rest =>
      obtain ⟨first, second⟩ := hd
      simp only [update_loop]
      by_cases hdue : first ≤ T
      · rw [if_pos hdue]
        cases hs : (call second clock ((first, second) :: rest)).status with
        | threw => exact ⟨_, rfl⟩
        | returned =>
          have hw := call_weight second clock ((first, second) :: rest)
          have hwf' := call_well_formed second clock _ hwf
          have hmem := call_mem_of_mem second clock ((first, second) :: rest)
            (first, second) (List.mem_cons_self _ _)
          have he := weight_erase first second _ hwf' hmem
          have hlt : weight (erase first (call second clock ((first, second) :: rest)).actions)
              < n := by
            simp only [weight] at hfuel hw
            omega
          obtain ⟨r', hr'⟩ := ih (call second clock ((first, second) :: rest)).clock _
            (well_formed_erase first _ hwf') hlt
          simp only [hr']
          exact ⟨_, rfl⟩
      · rw [if_neg hdue]
        exact ⟨_, rfl⟩

theorem update_loop_executed_le (fuel : Nat) (T clock : time_point) (m : action_map)
    (r : update_result) (h : update_loop fuel T clock m = some r) :
    ∀ e ∈ r.executed, e.1 ≤ T := by
  induction fuel generalizing clock m r with
  | zero => simp [update_loop] at h
  | succ n ih =>
    rcases update_loop_cases n T clock m r h with ⟨_, hr⟩ | ⟨_, _, _, _, _, hr⟩ |
      ⟨first, second, rest, _, hdue, _, hr⟩ | ⟨first, second, rest, r', _, hdue, _, hr', hr⟩
    · rw [hr]; simp
    · rw [hr]; simp
    · rw [hr]; intro e he
      simp only [List.mem_singleton] at he
      rw [he]; exact hdue
    · rw [hr]; intro e he
      rcases List.mem_cons.mp he with he | he
      · rw [he]; exact hdue
      · exact ih _ _ r' hr' e he

theorem update_loop_well_formed (fuel : Nat) (T clock : time_point) (m : action_map)
    (r : update_result) (hwf : well_formed m) (h : update_loop fuel T clock m = some r) :
    well_formed r.actions := by
  induction fuel generalizing clock m r with
  | zero => simp [update_loop] at h
  | succ n ih =>
    rcases update_loop_cases n T clock m r h with ⟨_, hr⟩ | ⟨_, _, _, _, _, hr⟩ |
      ⟨first, second, rest, _, hdue, _, hr⟩ | ⟨first, second, rest, r', _, hdue, _, hr', hr⟩
    · rw [hr]; simp [well_formed]
    · rw [hr]; exact hwf
    · rw [hr]; exact call_well_formed _ _ _ hwf
    · rw [hr]
      exact ih _ _ r' (well_formed_erase _ _ (call_well_formed _ _ _ hwf)) hr'

theorem update_loop_returned_gt (fuel : Nat) (T clock : time_point) (m : action_map)
    (r : update_result) (hwf : well_formed m) (h : update_loop fuel T clock m = some r)
    (hret : r.status = outcome.returned) : ∀ e ∈ r.actions, T < e.1 := by
  induction fuel generalizing clock m r with
  | zero => simp [update_loop] at h
  | succ n ih =>
    rcases update_loop_cases n T clock m r h with ⟨_, hr⟩ | ⟨first, second, rest, hm, hlt, hr⟩ |
      ⟨first, second, rest, _, hdue, _, hr⟩ | ⟨first, second, rest, r', _, hdue, _, hr', hr⟩
    · rw [hr]; simp
    · rw [hr, hm]; intro e he
      rw [hm] at hwf
      unfold well_formed at hwf
      rw [List.pairwise_cons] at hwf
      rcases List.mem_cons.mp he with he | he
      · rw [he]; exact hlt
      · exact lt_trans hlt (hwf.1 e he)
    · rw [hr] at hret; cases hret
    · rw [hr] at hret ⊢
      exact ih _ _ r' (well_formed_erase _ _ (call_well_formed _ _ _ hwf)) hr' hret

theorem action.size_pos (a : action) : 0 < a.size := by
  cases a <;> simp only [action.size] <;> omega

theorem length_le_weight (m : action_map) : m.length ≤ weight m := by
  induction m with
  | nil => simp [weight]
  | cons hd tl ih =>
    obtain ⟨k, v⟩ := hd
    have := action.size_pos v
    simp only [List.length_cons, weight]; omega

theorem filter_due_of_gt (T : time_point) (m : action_map) (h : ∀ e ∈ m, T < e.1) :
    m.filter (fun e => decide (e.1 ≤ T)) = [] ∧ m.filter (fun e => decide (T < e.1)) = m := by
  constructor
  · rw [List.filter_eq_nil_iff]
    intro e he
    simpa using h e he
  · rw [List.filter_eq_self]
    intro e he
    simpa using h e he

theorem update_loop_plain (T clock : time_point) (m : action_map) (fuel : Nat)
    (hfuel : m.length < fuel) (hwf : well_formed m)
    (hplain : ∀ e ∈ m, e.2.plain = true) :
    update_loop fuel T clock m = some ⟨outcome.returned, m.filter (fun e => decide (e.1 ≤ T)),
      [], clock, m.filter (fun e => decide (T < e.1))⟩ := by
  induction m generalizing fuel with
  | nil =>
    cases fuel with
    | zero => simp at hfuel
    | succ n => rfl
  | cons hd rest ih =>
    obtain ⟨first, second⟩ := hd
    cases fuel with
    | zero => simp at hfuel
    | succ n =>
      have hwf' := hwf
      unfold well_formed at hwf'
      rw [List.pairwise_cons] at hwf'
      simp only [update_loop]
      by_cases hdue : first ≤ T
      · rw [if_pos hdue]
        rw [call_plain second clock _ (hplain (first, second) (List.mem_cons_self _ _))]
        have herase : erase first ((first, second) :: rest) = rest := by simp [erase]
        simp only [herase]
        rw [ih n (by simpa using hfuel) hwf'.2
          (fun e he => hplain e (List.mem_cons_of_mem _ he))]
        simp [List.filter_cons, hdue]
      · rw [if_neg hdue]
        have hgt : ∀ e ∈ (first, second) :: rest, T < e.1 := by
          intro e he
          rcases List.mem_cons.mp he with he | he
          · rw [he]; exact not_le.mp hdue
          · exact lt_trans (not_le.mp hdue) (hwf'.1 e he)
        obtain ⟨h1, h2⟩ := filter_due_of_gt T _ hgt
        rw [h1, h2]

theorem well_formed_nodup (m : action_map) (h : well_formed m) : m.Nodup := by
  unfold well_formed at h
  exact h.imp (fun hlt heq => by rw [heq] at hlt; exact lt_irrefl _ hlt)

/-! ## The claims -/

/-- C1 as stated fails: no stored function calls `insert`, but the one under key 2 throws;
the `update` at 5 is left by the exception, the due entry of key 3 is not called, and nothing
is removed from the map. -/
theorem throwing_callback_stops_update :
    (delayed_action_handler.mk
      [(2, action.raise), (3, action.effect 1 action.ret), (9, action.ret)]).update 5
      = some ⟨outcome.threw, [(2, action.raise)], [], 5,
          [(2, action.raise), (3, action.effect 1 action.ret), (9, action.ret)]⟩ := by
  decide

/-- C1, amended: when no stored function calls `insert` or throws, one `update` taken at the snapshot
`T` returns having called exactly the pending entries with `fire_instant ≤ T`, each once and in
key order, removes exactly those, and leaves every entry with `fire_instant > T` in the map,
key and function unchanged. -/
theorem update_executes_exactly_due (self : delayed_action_handler) (T : time_point)
    (hwf : well_formed self.actions)
    (hplain : ∀ e ∈ self.actions, e.2.plain = true) :
    ∃ r, self.update T = some r ∧ r.status = outcome.returned ∧
      r.executed = self.actions.filter (fun e => decide (e.1 ≤ T)) ∧
      r.executed.Nodup ∧
      (∀ e, e ∈ r.executed ↔ e ∈ self.actions ∧ e.1 ≤ T) ∧
      r.actions = self.actions.filter (fun e => decide (T < e.1)) ∧
      (∀ e, e ∈ r.actions ↔ e ∈ self.actions ∧ T < e.1) := by
  have hlen : self.actions.length < weight self.actions + 1 :=
    Nat.lt_succ_of_le (length_le_weight _)
  refine ⟨_, update_loop_plain T T self.actions _ hlen hwf hplain, rfl, rfl, ?_, ?_, rfl, ?_⟩
  · exact (well_formed_nodup _ hwf).filter _
  · intro e; simp [List.mem_filter]
  · intro e; simp [List.mem_filter]

theorem update_executes_exactly_due_witness :
    well_formed [(1, action.ret), (3, action.effect 7 action.ret), (9, action.ret)] ∧
    ∃ r, (delayed_action_handler.mk
        [(1, action.ret), (3, action.effect 7 action.ret), (9, action.ret)]).update 5 = some r ∧
      r.status = outcome.returned ∧
      r.executed = [(1, action.ret), (3, action.effect 7 action.ret)] ∧
      r.actions = [(9, action.ret)] := by
  refine ⟨by decide, ?_⟩
  obtain ⟨r, h1, h2, h3, _, _, h5, _⟩ := update_executes_exactly_due
    ⟨[(1, action.ret), (3, action.effect 7 action.ret), (9, action.ret)]⟩ 5
    (by decide) (by decide)
  exact ⟨r, h1, h2, by rw [h3]; decide, by rw [h5]; decide⟩

/-- C10: when every pending entry has `fire_instant > T` (the empty map included), `update`
at `T` returns having called no stored function and leaves the map exactly as it was. -/
theorem update_nothing_due (self : delayed_action_handler) (T : time_point)
    (hlate : ∀ e ∈ self.actions, T < e.1) :
    self.update T = some ⟨outcome.returned, [], [], T, self.actions⟩ := by
  unfold delayed_action_handler.update
  cases hm : self.actions with
  | nil => rfl
  | cons hd rest =>
    obtain ⟨first, second⟩ := hd
    have h1 : ¬ first ≤ T := by
      have := hlate (first, second) (by rw [hm]; exact List.mem_cons_self _ _)
      exact not_le.mpr this
    simp only [update_loop, if_neg h1]

theorem update_nothing_due_witness :
    (∀ e ∈ (delayed_action_handler.mk
        [(7, action.insert 0 0 action.ret action.ret), (9, action.raise)]).actions, 5 < e.1) ∧
    (delayed_action_handler.mk
        [(7, action.insert 0 0 action.ret action.ret), (9, action.raise)]).update 5
      = some ⟨outcome.returned, [], [], 5,
        [(7, action.insert 0 0 action.ret action.ret), (9, action.raise)]⟩ :=
  ⟨by decide, update_nothing_due ⟨[(7, action.insert 0 0 action.ret action.ret),
    (9, action.raise)]⟩ 5 (by decide)⟩

/-- C7: whatever the stored functions do (inserting included), `update` taken at the snapshot
`T` comes to an end, and when it returns every entry still in the map has
`fire_instant > T`. -/
theorem update_leaves_no_due_entry (self : delayed_action_handler) (T : time_point)
    (hwf : well_formed self.actions) :
    ∃ r, self.update T = some r ∧
      (r.status = outcome.returned → ∀ e ∈ r.actions, T < e.1) := by
  obtain ⟨r, hr⟩ := update_loop_total (weight self.actions + 1) T T self.actions hwf
    (Nat.lt_succ_self _)
  exact ⟨r, hr, fun hret => update_loop_returned_gt _ T T _ r hwf hr hret⟩

theorem update_leaves_no_due_entry_witness :
    well_formed [(0, action.insert 0 0 (action.effect 2 action.ret) action.ret),
      (3, action.insert 1 (1 / 100) (action.effect 4 action.ret) action.ret),
      (9, action.ret)] ∧
    ∃ r, (delayed_action_handler.mk
        [(0, action.insert 0 0 (action.effect 2 action.ret) action.ret),
          (3, action.insert 1 (1 / 100) (action.effect 4 action.ret) action.ret),
          (9, action.ret)]).update 5 = some r ∧
      (r.status = outcome.returned → ∀ e ∈ r.actions, 5 < e.1) :=
  ⟨by decide, update_leaves_no_due_entry
    ⟨[(0, action.insert 0 0 (action.effect 2 action.ret) action.ret),
      (3, action.insert 1 (1 / 100) (action.effect 4 action.ret) action.ret),
      (9, action.ret)]⟩ 5 (by decide)⟩

/-! ## Single-precision rounding -/

theorem log2_loop_spec (fuel n : Nat) (hfuel : n ≤ fuel) (hn : 1 ≤ n) :
    2 ^ log2_loop fuel n ≤ n ∧ n < 2 ^ (log2_loop fuel n + 1) := by
  induction fuel generalizing n with
  | zero => omega
  | succ k ih =>
    simp only [log2_loop]
    by_cases h2 : n < 2
    · rw [if_pos h2]
      have : n = 1 := by omega
      subst this
      simp
    · rw [if_neg h2]
      have hhalf : n / 2 ≤ k := by omega
      have hone : 1 ≤ n / 2 := by omega
      obtain ⟨h1, h3⟩ := ih (n / 2) hhalf hone
      have e1 : 2 ^ (log2_loop k (n / 2) + 1) = 2 * 2 ^ log2_loop k (n / 2) := by ring
      have e2 : 2 ^ (log2_loop k (n / 2) + 1 + 1) = 2 * 2 ^ (log2_loop k (n / 2) + 1) := by ring
      rw [e2]
      rw [e1] at h3 ⊢
      constructor <;> omega

theorem floor_log2_spec (n : Nat) (hn : 1 ≤ n) :
    2 ^ floor_log2 n ≤ n ∧ n < 2 ^ (floor_log2 n + 1) :=
  log2_loop_spec n n (le_refl _) hn

theorem two_pow_eq (e : Int) : two_pow e = (2 : ℚ) ^ e := by
  unfold two_pow
  by_cases h : 0 ≤ e
  · rw [if_pos h]
    obtain ⟨n, rfl⟩ := Int.eq_ofNat_of_zero_le h
    simp
  · rw [if_neg h]
    have hneg : 0 ≤ -e := by omega
    obtain ⟨n, hn⟩ := Int.eq_ofNat_of_zero_le hneg
    have he : e = -(n : Int) := by omega
    rw [hn, he]
    simp [zpow_neg]

theorem binary_exponent_spec (x : ℚ) (hx : 0 < x) :
    (2 : ℚ) ^ binary_exponent x ≤ x ∧ x < (2 : ℚ) ^ (binary_exponent x + 1) := by
  have hnum : 0 < x.num := Rat.num_pos.mpr hx
  have hden : 0 < x.den := x.den_pos
  have hn1 : 1 ≤ x.num.natAbs := by omega
  obtain ⟨a1, a2⟩ := floor_log2_spec x.num.natAbs hn1
  obtain ⟨b1, b2⟩ := floor_log2_spec x.den hden
  have hxeq : x = (x.num.natAbs : ℚ) / (x.den : ℚ) := by
    have h2 : (x.num.natAbs : ℚ) = (x.num : ℚ) := by
      rw [Nat.cast_natAbs, abs_of_pos hnum]
    rw [h2]
    exact (Rat.num_div_den x).symm
  have a1' : (2 : ℚ) ^ floor_log2 x.num.natAbs ≤ (x.num.natAbs : ℚ) := by exact_mod_cast a1
  have a2' : (x.num.natAbs : ℚ) < (2 : ℚ) ^ (floor_log2 x.num.natAbs + 1) := by exact_mod_cast a2
  have b1' : (2 : ℚ) ^ floor_log2 x.den ≤ (x.den : ℚ) := by exact_mod_cast b1
  have b2' : (x.den : ℚ) < (2 : ℚ) ^ (floor_log2 x.den + 1) := by exact_mod_cast b2
  have hdpos : (0 : ℚ) < (x.den : ℚ) := by exact_mod_cast hden
  have hzp : ∀ (p q : Nat), (2 : ℚ) ^ ((p : Int) - (q : Int)) = (2 : ℚ) ^ p / (2 : ℚ) ^ q := by
    intro p q
    rw [zpow_sub₀ (by norm_num : (2 : ℚ) ≠ 0), zpow_natCast, zpow_natCast]
  have hup : x < (2 : ℚ) ^ ((floor_log2 x.num.natAbs : Int) - (floor_log2 x.den : Int) + 1) := by
    have he : ((floor_log2 x.num.natAbs : Int) - (floor_log2 x.den : Int) + 1)
        = (((floor_log2 x.num.natAbs + 1 : Nat) : Int) - (floor_log2 x.den : Int)) := by
      push_cast; ring
    rw [he, hzp]
    have hq : (x.num.natAbs : ℚ) / (x.den : ℚ)
        < (2 : ℚ) ^ (floor_log2 x.num.natAbs + 1) / (2 : ℚ) ^ floor_log2 x.den := by
      rw [div_lt_div_iff₀ hdpos (by positivity)]
      calc (x.num.natAbs : ℚ) * 2 ^ floor_log2 x.den
          ≤ (x.num.natAbs : ℚ) * (x.den : ℚ) :=
            mul_le_mul_of_nonneg_left b1' (by positivity)
        _ < 2 ^ (floor_log2 x.num.natAbs + 1) * (x.den : ℚ) :=
            mul_lt_mul_of_pos_right a2' hdpos
    calc x = (x.num.natAbs : ℚ) / (x.den : ℚ) := hxeq
      _ < _ := hq
  have hlow : (2 : ℚ) ^ ((floor_log2 x.num.natAbs : Int) - (floor_log2 x.den : Int) - 1) ≤ x := by
    have he : ((floor_log2 x.num.natAbs : Int) - (floor_log2 x.den : Int) - 1)
        = ((floor_log2 x.num.natAbs : Int) - ((floor_log2 x.den + 1 : Nat) : Int)) := by
      push_cast; ring
    rw [he, hzp]
    have hq : (2 : ℚ) ^ floor_log2 x.num.natAbs / (2 : ℚ) ^ (floor_log2 x.den + 1)
        ≤ (x.num.natAbs : ℚ) / (x.den : ℚ) := by
      rw [div_le_div_iff₀ (by positivity) hdpos]
      calc (2 : ℚ) ^ floor_log2 x.num.natAbs * (x.den : ℚ)
          ≤ (x.num.natAbs : ℚ) * (x.den : ℚ) :=
            mul_le_mul_of_nonneg_right a1' (le_of_lt hdpos)
        _ ≤ (x.num.natAbs : ℚ) * 2 ^ (floor_log2 x.den + 1) :=
            mul_le_mul_of_nonneg_left (le_of_lt b2') (by positivity)
    calc _ ≤ (x.num.natAbs : ℚ) / (x.den : ℚ) := hq
      _ = x := hxeq.symm
  unfold binary_exponent
  rw [abs_of_pos hx, two_pow_eq]
  by_cases hc : x < (2 : ℚ) ^ ((floor_log2 x.num.natAbs : Int) - (floor_log2 x.den : Int))
  · rw [if_pos hc]
    refine ⟨hlow, ?_⟩
    have : (floor_log2 x.num.natAbs : Int) - (floor_log2 x.den : Int) - 1 + 1
        = (floor_log2 x.num.natAbs : Int) - (floor_log2 x.den : Int) := by ring
    rw [this]; exact hc
  · rw [if_neg hc]
    exact ⟨not_lt.mp hc, hup⟩

theorem binary_exponent_unique (x : ℚ) (e : Int) (h1 : (2 : ℚ) ^ e ≤ x)
    (h2 : x < (2 : ℚ) ^ (e + 1)) : binary_exponent x = e := by
  have hx : 0 < x := lt_of_lt_of_le (by positivity) h1
  obtain ⟨s1, s2⟩ := binary_exponent_spec x hx
  have t1 : binary_exponent x < e + 1 :=
    (zpow_lt_zpow_iff_right₀ (by norm_num : (1 : ℚ) < 2)).mp (lt_of_le_of_lt s1 h2)
  have t2 : e < binary_exponent x + 1 :=
    (zpow_lt_zpow_iff_right₀ (by norm_num : (1 : ℚ) < 2)).mp (lt_of_le_of_lt h1 s2)
  omega

theorem round_half_even_ge_floor (y : ℚ) : ⌊y⌋ ≤ round_half_even y := by
  unfold round_half_even
  split_ifs <;> omega

theorem round_half_even_le_floor_succ (y : ℚ) : round_half_even y ≤ ⌊y⌋ + 1 := by
  unfold round_half_even
  split_ifs <;> omega

theorem round_half_even_le (y : ℚ) : (round_half_even y : ℚ) ≤ y + 1 / 2 := by
  have h1 := Int.floor_le y
  unfold round_half_even
  split_ifs with a b c
  · linarith
  · push_cast; linarith
  · linarith
  · push_cast; linarith

theorem round_half_even_ge (y : ℚ) : y - 1 / 2 ≤ (round_half_even y : ℚ) := by
  have h2 := Int.lt_floor_add_one y
  unfold round_half_even
  split_ifs with a b c
  · linarith
  · push_cast; linarith
  · linarith
  · push_cast; linarith

theorem round_half_even_int (k : Int) : round_half_even (k : ℚ) = k := by
  unfold round_half_even
  simp

theorem round_half_even_mono (y1 y2 : ℚ) (h : y1 ≤ y2) :
    round_half_even y1 ≤ round_half_even y2 := by
  have hf : ⌊y1⌋ ≤ ⌊y2⌋ := Int.floor_mono h
  rcases lt_or_eq_of_le hf with hlt | heq
  · have a := round_half_even_le_floor_succ y1
    have b := round_half_even_ge_floor y2
    omega
  · unfold round_half_even
    rw [← heq]
    split_ifs with a b c d e f g i j <;> first | omega | (exfalso; linarith)

theorem float_ulp_eq (x : ℚ) : float_ulp x = (2 : ℚ) ^ (max (binary_exponent x - 23) (-149)) :=
  two_pow_eq _

theorem float_ulp_pos (x : ℚ) : 0 < float_ulp x := by
  rw [float_ulp_eq]; positivity

theorem round_float_of_ne (x : ℚ) (hx : x ≠ 0) :
    round_float x = (round_half_even (x / float_ulp x) : ℚ) * float_ulp x := by
  unfold round_float
  rw [if_neg hx]

theorem round_float_nonneg (x : ℚ) (hx : 0 ≤ x) : 0 ≤ round_float x := by
  by_cases h0 : x = 0
  · simp [round_float, h0]
  · rw [round_float_of_ne x h0]
    have hu := float_ulp_pos x
    have hq : (0 : ℚ) ≤ x / float_ulp x := div_nonneg hx (le_of_lt hu)
    have h1 : (0 : Int) ≤ ⌊x / float_ulp x⌋ := Int.floor_nonneg.mpr hq
    have h2 := round_half_even_ge_floor (x / float_ulp x)
    have h3 : (0 : ℚ) ≤ (round_half_even (x / float_ulp x) : ℚ) := by
      exact_mod_cast le_trans h1 h2
    positivity

/-- A positive number is rounded to at most the next power of two. -/
theorem round_float_le_next_pow (x : ℚ) (hx : 0 < x) :
    round_float x ≤ (2 : ℚ) ^ (binary_exponent x + 1) := by
  obtain ⟨_, s2⟩ := binary_exponent_spec x hx
  rw [round_float_of_ne x (ne_of_gt hx), float_ulp_eq]
  set k := max (binary_exponent x - 23) (-149) with hk
  have hu : (0 : ℚ) < (2 : ℚ) ^ k := by positivity
  have hq : x / (2 : ℚ) ^ k < (2 : ℚ) ^ (binary_exponent x + 1 - k) := by
    rw [zpow_sub₀ (by norm_num : (2 : ℚ) ≠ 0)]
    exact div_lt_div_of_pos_right s2 hu
  by_cases hj : 0 ≤ binary_exponent x + 1 - k
  · obtain ⟨n, hn⟩ := Int.eq_ofNat_of_zero_le hj
    have hint : (2 : ℚ) ^ (binary_exponent x + 1 - k) = (((2 ^ n : Nat) : Int) : ℚ) := by
      rw [hn, zpow_natCast]; push_cast; rfl
    have h1 : round_half_even (x / (2 : ℚ) ^ k) ≤ ((2 ^ n : Nat) : Int) := by
      have := round_half_even_mono _ _ (le_of_lt hq)
      rw [hint, round_half_even_int] at this
      exact this
    have h2 : (round_half_even (x / (2 : ℚ) ^ k) : ℚ) ≤ (2 : ℚ) ^ (binary_exponent x + 1 - k) := by
      rw [hint]; exact_mod_cast h1
    calc (round_half_even (x / (2 : ℚ) ^ k) : ℚ) * (2 : ℚ) ^ k
        ≤ (2 : ℚ) ^ (binary_exponent x + 1 - k) * (2 : ℚ) ^ k :=
          mul_le_mul_of_nonneg_right h2 (le_of_lt hu)
      _ = (2 : ℚ) ^ (binary_exponent x + 1) := by
          rw [← zpow_add₀ (by norm_num : (2 : ℚ) ≠ 0)]; congr 1; ring
  · have hneg : binary_exponent x + 1 - k ≤ -1 := by omega
    have hhalf : (2 : ℚ) ^ (binary_exponent x + 1 - k) ≤ 1 / 2 := by
      have := (zpow_le_zpow_iff_right₀ (by norm_num : (1 : ℚ) < 2)).mpr hneg
      simpa using this
    have h1 : round_half_even (x / (2 : ℚ) ^ k) ≤ 0 := by
      have := round_half_even_mono _ _ (le_trans (le_of_lt hq) hhalf)
      have h0 : round_half_even (1 / 2 : ℚ) = 0 := by decide!
      rw [h0] at this
      exact this
    have h2 : (round_half_even (x / (2 : ℚ) ^ k) : ℚ) ≤ 0 := by exact_mod_cast h1
    calc (round_half_even (x / (2 : ℚ) ^ k) : ℚ) * (2 : ℚ) ^ k
        ≤ 0 := mul_nonpos_of_nonpos_of_nonneg h2 (le_of_lt hu)
      _ ≤ (2 : ℚ) ^ (binary_exponent x + 1) := by positivity

/-- A positive number in the normal range is rounded to at least the power of two below. -/
theorem round_float_ge_pow (x : ℚ) (hx : 0 < x) (hnormal : -149 ≤ binary_exponent x - 23) :
    (2 : ℚ) ^ binary_exponent x ≤ round_float x := by
  obtain ⟨s1, _⟩ := binary_exponent_spec x hx
  rw [round_float_of_ne x (ne_of_gt hx), float_ulp_eq, max_eq_left hnormal]
  have hu : (0 : ℚ) < (2 : ℚ) ^ (binary_exponent x - 23) := by positivity
  have hq : (((2 ^ 23 : Nat) : Int) : ℚ) ≤ x / (2 : ℚ) ^ (binary_exponent x - 23) := by
    rw [le_div_iff₀ hu]
    have : (((2 ^ 23 : Nat) : Int) : ℚ) * (2 : ℚ) ^ (binary_exponent x - 23)
        = (2 : ℚ) ^ binary_exponent x := by
      have h23 : (((2 ^ 23 : Nat) : Int) : ℚ) = (2 : ℚ) ^ (23 : Int) := by norm_num
      rw [h23, ← zpow_add₀ (by norm_num : (2 : ℚ) ≠ 0)]; congr 1; ring
    rw [this]; exact s1
  have h1 := round_half_even_mono _ _ hq
  rw [round_half_even_int] at h1
  have h2 : (((2 ^ 23 : Nat) : Int) : ℚ)
      ≤ (round_half_even (x / (2 : ℚ) ^ (binary_exponent x - 23)) : ℚ) := by exact_mod_cast h1
  calc (2 : ℚ) ^ binary_exponent x
      = (((2 ^ 23 : Nat) : Int) : ℚ) * (2 : ℚ) ^ (binary_exponent x - 23) := by
        have h23 : (((2 ^ 23 : Nat) : Int) : ℚ) = (2 : ℚ) ^ (23 : Int) := by norm_num
        rw [h23, ← zpow_add₀ (by norm_num : (2 : ℚ) ≠ 0)]; congr 1; ring
    _ ≤ _ := mul_le_mul_of_nonneg_right h2 (le_of_lt hu)

theorem binary_exponent_mono (x y : ℚ) (hx : 0 < x) (h : x ≤ y) :
    binary_exponent x ≤ binary_exponent y := by
  obtain ⟨s1, _⟩ := binary_exponent_spec x hx
  obtain ⟨_, t2⟩ := binary_exponent_spec y (lt_of_lt_of_le hx h)
  have := (zpow_lt_zpow_iff_right₀ (by norm_num : (1 : ℚ) < 2)).mp
    (lt_of_le_of_lt (le_trans s1 h) t2)
  omega

theorem round_float_mono (x y : ℚ) (hx : 0 ≤ x) (h : x ≤ y) :
    round_float x ≤ round_float y := by
  rcases eq_or_lt_of_le hx with h0 | hpos
  · rw [← h0]
    have : round_float 0 = 0 := by simp [round_float]
    rw [this]; exact round_float_nonneg y (le_trans hx h)
  · have hy : 0 < y := lt_of_lt_of_le hpos h
    have hE := binary_exponent_mono x y hpos h
    by_cases hk : max (binary_exponent x - 23) (-149) = max (binary_exponent y - 23) (-149)
    · rw [round_float_of_ne x (ne_of_gt hpos), round_float_of_ne y (ne_of_gt hy)]
      have hu : float_ulp x = float_ulp y := by rw [float_ulp_eq, float_ulp_eq, hk]
      rw [hu]
      have hup := float_ulp_pos y
      have hq : x / float_ulp y ≤ y / float_ulp y := div_le_div_of_nonneg_right h (le_of_lt hup)
      have := round_half_even_mono _ _ hq
      have h2 : (round_half_even (x / float_ulp y) : ℚ) ≤ (round_half_even (y / float_ulp y) : ℚ) := by
        exact_mod_cast this
      exact mul_le_mul_of_nonneg_right h2 (le_of_lt hup)
    · have hnormal : -149 ≤ binary_exponent y - 23 := by
        by_contra hc
        apply hk
        rw [max_eq_right (by omega), max_eq_right (by omega)]
      have hlt : binary_exponent x + 1 ≤ binary_exponent y := by
        by_contra hc
        apply hk
        have : binary_exponent x = binary_exponent y := by omega
        rw [this]
      calc round_float x ≤ (2 : ℚ) ^ (binary_exponent x + 1) := round_float_le_next_pow x hpos
        _ ≤ (2 : ℚ) ^ binary_exponent y :=
          (zpow_le_zpow_iff_right₀ (by norm_num : (1 : ℚ) < 2)).mpr hlt
        _ ≤ round_float y := round_float_ge_pow y hy hnormal

/-- In the normal range rounding changes a number by at most one part in 2^24. -/
theorem round_float_error (x : ℚ) (hx : (2 : ℚ) ^ (-126 : Int) ≤ x) :
    x - x / 16777216 ≤ round_float x ∧ round_float x ≤ x + x / 16777216 := by
  have hpos : 0 < x := lt_of_lt_of_le (by positivity) hx
  obtain ⟨s1, s2⟩ := binary_exponent_spec x hpos
  have hE : -126 < binary_exponent x + 1 :=
    (zpow_lt_zpow_iff_right₀ (by norm_num : (1 : ℚ) < 2)).mp (lt_of_le_of_lt hx s2)
  have hnormal : -149 ≤ binary_exponent x - 23 := by omega
  rw [round_float_of_ne x (ne_of_gt hpos), float_ulp_eq, max_eq_left hnormal]
  have hu : (0 : ℚ) < (2 : ℚ) ^ (binary_exponent x - 23) := by positivity
  have hle := round_half_even_le (x / (2 : ℚ) ^ (binary_exponent x - 23))
  have hge := round_half_even_ge (x / (2 : ℚ) ^ (binary_exponent x - 23))
  have hhalf : (2 : ℚ) ^ (binary_exponent x - 23) / 2 ≤ x / 16777216 := by
    have : (2 : ℚ) ^ (binary_exponent x - 23) = (2 : ℚ) ^ binary_exponent x / 8388608 := by
      rw [zpow_sub₀ (by norm_num : (2 : ℚ) ≠ 0)]; norm_num
    rw [this]
    linarith
  have hmul : x / (2 : ℚ) ^ (binary_exponent x - 23) * (2 : ℚ) ^ (binary_exponent x - 23) = x :=
    div_mul_cancel₀ x (ne_of_gt hu)
  constructor
  · have := mul_le_mul_of_nonneg_right hge (le_of_lt hu)
    rw [sub_mul, hmul] at this
    linarith
  · have := mul_le_mul_of_nonneg_right hle (le_of_lt hu)
    rw [add_mul, hmul] at this
    linarith

/-! ## The key computed by `insert` -/

theorem float_to_int_of_nonneg (x : ℚ) (h0 : 0 ≤ x) (h1 : x < 2147483648) :
    float_to_int x = ⌊x⌋ := by
  have ht : Int.tdiv x.num x.den = ⌊x⌋ := by
    rw [Int.tdiv_eq_ediv (Rat.num_nonneg.mpr h0) (Int.ofNat_nonneg _), Rat.floor_def]
  have hlo : (0 : Int) ≤ ⌊x⌋ := Int.floor_nonneg.mpr h0
  have hhi : ⌊x⌋ < 2147483648 := by
    rw [Int.floor_lt]
    exact_mod_cast h1
  unfold float_to_int
  rw [ht, if_pos ⟨by omega, by omega⟩]

theorem delay_product_nonneg (w : ℚ) (h : 0 ≤ w) : 0 ≤ delay_product w :=
  round_float_nonneg _ (mul_nonneg (round_float_nonneg w h) (by norm_num))

theorem delay_product_of_float (d : ℚ) (hfloat : round_float d = d) :
    delay_product d = round_float (d * 1000) := by
  unfold delay_product
  rw [hfloat]

theorem fire_instant_eq_floor (t : time_point) (w : ℚ) (hw : 0 ≤ w)
    (hrange : delay_product w < 2147483648) :
    fire_instant t w = t + ⌊delay_product w⌋ * 1000000 := by
  unfold fire_instant milliseconds
  rw [float_to_int_of_nonneg _ (delay_product_nonneg w hw) hrange]

theorem fire_instant_ge (now : time_point) (w : ℚ) (h : 0 ≤ w)
    (hrange : delay_product w < 2147483648) : now ≤ fire_instant now w := by
  rw [fire_instant_eq_floor now w h hrange]
  have h1 : (0 : Int) ≤ ⌊delay_product w⌋ := Int.floor_nonneg.mpr (delay_product_nonneg w h)
  have h2 : (0 : Int) ≤ ⌊delay_product w⌋ * 1000000 := by positivity
  linarith

theorem fire_instant_ge_of_ms (now : time_point) (w : ℚ) (h : 1 / 1000 ≤ w)
    (hrange : delay_product w < 2147483648) : now + 1000000 ≤ fire_instant now w := by
  have hw : 0 ≤ w := by linarith
  have h1 : round_float (1 / 1000) ≤ round_float w := round_float_mono _ _ (by norm_num) h
  have hc : round_float (1 / 1000) = 8589935 / 8589934592 := by decide!
  rw [hc] at h1
  have h2 : (1 : ℚ) ≤ round_float w * 1000 := by linarith
  have h3 : round_float 1 ≤ delay_product w := round_float_mono _ _ (by norm_num) h2
  have h4 : round_float 1 = 1 := by decide!
  rw [h4] at h3
  have h5 : (1 : Int) ≤ ⌊delay_product w⌋ := Int.le_floor.mpr (by push_cast; exact h3)
  rw [fire_instant_eq_floor now w hw hrange]
  linarith

/-- The whole milliseconds of the rounded product lie within one millisecond below, and one
part in 2^24 around, the exact product. -/
theorem floor_product_bounds (d : ℚ) (hd : 0 ≤ d) :
    d * 1000 - d * 1000 / 16777216 - 1 < ((⌊round_float (d * 1000)⌋ : Int) : ℚ) ∧
    ((⌊round_float (d * 1000)⌋ : Int) : ℚ) ≤ d * 1000 + d * 1000 / 16777216 := by
  have hp : (0 : ℚ) ≤ d * 1000 := by positivity
  have hnn := round_float_nonneg _ hp
  have f1 : ((⌊round_float (d * 1000)⌋ : Int) : ℚ) ≤ round_float (d * 1000) := Int.floor_le _
  have f2 : round_float (d * 1000) < ((⌊round_float (d * 1000)⌋ : Int) : ℚ) + 1 :=
    Int.lt_floor_add_one _
  by_cases hn : (2 : ℚ) ^ (-126 : Int) ≤ d * 1000
  · obtain ⟨e1, e2⟩ := round_float_error _ hn
    constructor <;> linarith
  · have hsmall : d * 1000 < 1 / 2 := by
      have h1 : (2 : ℚ) ^ (-126 : Int) ≤ (2 : ℚ) ^ (-1 : Int) :=
        (zpow_le_zpow_iff_right₀ (by norm_num : (1 : ℚ) < 2)).mpr (by norm_num)
      have h2 : (2 : ℚ) ^ (-1 : Int) = 1 / 2 := by norm_num
      rw [h2] at h1
      exact lt_of_lt_of_le (not_le.mp hn) h1
    have h3 : round_float (d * 1000) ≤ round_float (1 / 2) :=
      round_float_mono _ _ hp (le_of_lt hsmall)
    have h4 : round_float (1 / 2) = 1 / 2 := by decide!
    rw [h4] at h3
    have hz : ⌊round_float (d * 1000)⌋ = 0 := by
      rw [Int.floor_eq_iff]
      constructor
      · simpa using hnn
      · push_cast; linarith
    rw [hz]
    have hq : (0 : ℚ) ≤ d * 1000 / 16777216 := by positivity
    constructor
    · push_cast
      have : d * 1000 / 16777216 ≥ 0 := hq
      linarith
    · push_cast; linarith

/-- A `float` below 0.001 is at most the largest `float` below 0.001, and its product with
1000 is rounded to a number below 1. -/
theorem small_float_product (d : ℚ) (hd : 0 ≤ d) (hfloat : round_float d = d)
    (hs : d < 1 / 1000) : round_float (d * 1000) < 1 := by
  have hp : (0 : ℚ) ≤ d * 1000 := by positivity
  by_cases hlow : d < 1 / 1024
  · have h1 : round_float (d * 1000) ≤ round_float (125 / 128) :=
      round_float_mono _ _ hp (by linarith)
    have h2 : round_float (125 / 128) = 125 / 128 := by decide!
    rw [h2] at h1
    linarith
  · have hge : (1 / 1024 : ℚ) ≤ d := not_lt.mp hlow
    have hE : binary_exponent d = -10 := by
      apply binary_exponent_unique
      · have : (2 : ℚ) ^ (-10 : Int) = 1 / 1024 := by norm_num
        rw [this]; exact hge
      · have : (2 : ℚ) ^ (-10 + 1 : Int) = 1 / 512 := by norm_num
        rw [this]; linarith
    have hne : d ≠ 0 := by linarith
    have hu : float_ulp d = 1 / 8589934592 := by
      rw [float_ulp_eq, hE]; norm_num
    have hform : d = (round_half_even (d / (1 / 8589934592)) : ℚ) * (1 / 8589934592) := by
      have := round_float_of_ne d hne
      rw [hfloat, hu] at this
      exact this
    have hNlt : ((round_half_even (d / (1 / 8589934592)) : Int) : ℚ) < ((8589935 : Int) : ℚ) := by
      push_cast
      linarith
    have hN : round_half_even (d / (1 / 8589934592)) ≤ 8589934 := by
      have : round_half_even (d / (1 / 8589934592)) < 8589935 := by exact_mod_cast hNlt
      omega
    have hN' : ((round_half_even (d / (1 / 8589934592)) : Int) : ℚ) ≤ 8589934 := by
      exact_mod_cast hN
    have hdle : d * 1000 ≤ 8589934 / 8589934592 * 1000 := by linarith
    have h1 : round_float (d * 1000) ≤ round_float (8589934 / 8589934592 * 1000) :=
      round_float_mono _ _ hp hdle
    have h2 : round_float (8589934 / 8589934592 * 1000) = 16777215 / 16777216 := by decide!
    rw [h2] at h1
    linarith

theorem call_inserted_delays_in_range (a : action) (clock : time_point) (m : action_map)
    (ha : a.delays_in_range = true) (ic : insert_call) (h : ic ∈ (call a clock m).inserted) :
    (0 ≤ ic.wait_time ∧ delay_product ic.wait_time < 2147483648) ∧
      ic.lambda.delays_in_range = true := by
  induction a generalizing clock m with
  | ret => simp [call] at h
  | raise => simp [call] at h
  | effect marker next ih =>
    simp only [action.delays_in_range] at ha
    simp only [call] at h
    exact ih clock m ha h
  | insert dt w lam next _ ih =>
    simp only [action.delays_in_range, Bool.and_eq_true, decide_eq_true_eq] at ha
    simp only [call] at h
    rcases List.mem_cons.mp h with h | h
    · rw [h]; exact ⟨⟨ha.1.1.1, ha.1.1.2⟩, ha.1.2⟩
    · exact ih _ _ ha.2 h

/-- After a stored function with delays in range has run from the clock reading `clock`, an
entry of the map is an old one or has a key at or after `clock`, and every stored function
still has its delays in range. -/
theorem call_entries_in_range (a : action) (clock : time_point) (m : action_map)
    (ha : a.delays_in_range = true) (hm : ∀ e ∈ m, e.2.delays_in_range = true)
    (e : time_point × action) (he : e ∈ (call a clock m).actions) :
    (e ∈ m ∨ clock ≤ e.1) ∧ e.2.delays_in_range = true := by
  rcases call_mem a clock m e he with h | ⟨ic, hic, h⟩
  · exact ⟨Or.inl h, hm e h⟩
  · obtain ⟨h1, h2⟩ := call_inserted_delays_in_range a clock m ha ic hic
    have h3 := call_inserted_now a clock m ic hic
    have h4 := fire_instant_ge ic.now ic.wait_time h1.1 h1.2
    rw [h]
    exact ⟨Or.inr (le_trans h3 h4), h2⟩

theorem update_loop_executed_ge (fuel : Nat) (T clock lb : time_point) (m : action_map)
    (r : update_result) (hclock : T ≤ clock) (hm : ∀ e ∈ m, e.2.delays_in_range = true)
    (hlb : lb ≤ T) (hge : ∀ e ∈ m, lb ≤ e.1)
    (h : update_loop fuel T clock m = some r) : ∀ e ∈ r.executed, lb ≤ e.1 := by
  induction fuel generalizing clock m r with
  | zero => simp [update_loop] at h
  | succ n ih =>
    rcases update_loop_cases n T clock m r h with ⟨_, hr⟩ | ⟨_, _, _, _, _, hr⟩ |
      ⟨first, second, rest, hm', hdue, _, hr⟩ | ⟨first, second, rest, r', hm', hdue, _, hr', hr⟩
    · rw [hr]; simp
    · rw [hr]; simp
    · rw [hr]; intro e he
      simp only [List.mem_singleton] at he
      rw [he]; exact hge _ (by rw [hm']; exact List.mem_cons_self _ _)
    · have hhead : (first, second) ∈ m := by rw [hm']; exact List.mem_cons_self _ _
      have hent := call_entries_in_range second clock m (hm _ hhead) hm
      rw [hr]; intro e he
      rcases List.mem_cons.mp he with he | he
      · rw [he]; exact hge _ hhead
      · refine ih (call second clock m).clock (erase first (call second clock m).actions) r'
          (le_trans hclock (call_clock_le _ _ _)) ?_ ?_ hr' e he
        · intro x hx
          exact (hent x (mem_erase _ _ _ hx)).2
        · intro x hx
          rcases (hent x (mem_erase _ _ _ hx)).1 with h1 | h1
          · exact hge x h1
          · exact le_trans hlb (le_trans hclock h1)

theorem update_loop_executed_sorted (fuel : Nat) (T clock : time_point) (m : action_map)
    (r : update_result) (hwf : well_formed m) (hclock : T ≤ clock)
    (hm : ∀ e ∈ m, e.2.delays_in_range = true)
    (h : update_loop fuel T clock m = some r) :
    r.executed.Pairwise (fun x y => x.1 ≤ y.1) := by
  induction fuel generalizing clock m r with
  | zero => simp [update_loop] at h
  | succ n ih =>
    rcases update_loop_cases n T clock m r h with ⟨_, hr⟩ | ⟨_, _, _, _, _, hr⟩ |
      ⟨first, second, rest, hm', hdue, _, hr⟩ | ⟨first, second, rest, r', hm', hdue, _, hr', hr⟩
    · rw [hr]; simp
    · rw [hr]; simp
    · rw [hr]; simp
    · have hhead : (first, second) ∈ m := by rw [hm']; exact List.mem_cons_self _ _
      have hent := call_entries_in_range second clock m (hm _ hhead) hm
      have hclock' : T ≤ (call second clock m).clock := le_trans hclock (call_clock_le _ _ _)
      have hnn : ∀ x ∈ erase first (call second clock m).actions, x.2.delays_in_range = true :=
        fun x hx => (hent x (mem_erase _ _ _ hx)).2
      have hmin : ∀ x ∈ m, first ≤ x.1 := by
        intro x hx
        rw [hm'] at hx hwf
        unfold well_formed at hwf
        rw [List.pairwise_cons] at hwf
        rcases List.mem_cons.mp hx with hx | hx
        · rw [hx]
        · exact le_of_lt (hwf.1 x hx)
      rw [hr]
      refine List.pairwise_cons.mpr ⟨?_, ?_⟩
      · refine update_loop_executed_ge n T _ first _ r' hclock' hnn hdue ?_ hr'
        intro x hx
        rcases (hent x (mem_erase _ _ _ hx)).1 with h1 | h1
        · exact hmin x h1
        · exact le_trans hdue (le_trans hclock h1)
      · exact ih _ _ r' (well_formed_erase _ _ (call_well_formed _ _ _ hwf)) hclock' hnn hr'

/-- C5 as stated fails: at the snapshot 10000000 the function stored under key 5000000
calls `insert` with the delay -1/128 s when the clock reads 10000000; the new entry gets the
key 3000000 and is called after the entry of key 5000000. The same happens with the delay
3000000 s, whose product with 1000 is beyond the range of `int`: the key is
2147483648 ms before the clock reading. -/
theorem update_calls_smaller_key_later :
    (delayed_action_handler.mk
      [(5000000, action.insert 0 (-1 / 128) (action.effect 2 action.ret) action.ret)]).update
        10000000
      = some ⟨outcome.returned,
          [(5000000, action.insert 0 (-1 / 128) (action.effect 2 action.ret) action.ret),
           (3000000, action.effect 2 action.ret)],
          [⟨10000000, -1 / 128, action.effect 2 action.ret⟩], 10000000, []⟩ ∧
    (delayed_action_handler.mk
      [(5000000, action.insert 0 3000000 (action.effect 2 action.ret) action.ret)]).update
        10000000
      = some ⟨outcome.returned,
          [(5000000, action.insert 0 3000000 (action.effect 2 action.ret) action.ret),
           (-2147483638000000, action.effect 2 action.ret)],
          [⟨10000000, 3000000, action.effect 2 action.ret⟩], 10000000, []⟩ := by
  decide!

/-- C5, amended: within one `update`, the stored functions are called in non-decreasing
order of `fire_instant`, provided every delay that a stored function passes to `insert` is
`≥ 0` and its product with 1000 is within the range of `int`: an entry called before
another one in the same `update` then has a key that is not larger. -/
theorem update_executes_in_key_order (self : delayed_action_handler) (T : time_point)
    (hwf : well_formed self.actions)
    (hdelay : ∀ e ∈ self.actions, e.2.delays_in_range = true) :
    ∃ r, self.update T = some r ∧ r.executed.Pairwise (fun x y => x.1 ≤ y.1) := by
  obtain ⟨r, hr⟩ := update_loop_total (weight self.actions + 1) T T self.actions hwf
    (Nat.lt_succ_self _)
  exact ⟨r, hr, update_loop_executed_sorted _ T T _ r hwf (le_refl _) hdelay hr⟩

theorem update_executes_in_key_order_witness :
    well_formed [(0, action.insert 0 0 (action.effect 2 action.ret) action.ret),
      (3, action.insert 1 (1 / 100) (action.effect 4 action.ret) action.ret),
      (9, action.ret)] ∧
    (∀ e ∈ [(0, action.insert 0 0 (action.effect 2 action.ret) action.ret),
      (3, action.insert 1 (1 / 100) (action.effect 4 action.ret) action.ret),
      (9, action.ret)], e.2.delays_in_range = true) ∧
    ∃ r, (delayed_action_handler.mk
        [(0, action.insert 0 0 (action.effect 2 action.ret) action.ret),
          (3, action.insert 1 (1 / 100) (action.effect 4 action.ret) action.ret),
          (9, action.ret)]).update 5 = some r ∧
      r.executed.Pairwise (fun x y => x.1 ≤ y.1) :=
  ⟨by decide, by with_unfolding_all decide, update_executes_in_key_order
    ⟨[(0, action.insert 0 0 (action.effect 2 action.ret) action.ret),
      (3, action.insert 1 (1 / 100) (action.effect 4 action.ret) action.ret),
      (9, action.ret)]⟩ 5 (by decide) (by with_unfolding_all decide)⟩

theorem update_loop_inserted_now (fuel : Nat) (T clock : time_point) (m : action_map)
    (r : update_result) (hclock : T ≤ clock) (h : update_loop fuel T clock m = some r) :
    ∀ ic ∈ r.inserted, T ≤ ic.now := by
  induction fuel generalizing clock m r with
  | zero => simp [update_loop] at h
  | succ n ih =>
    rcases update_loop_cases n T clock m r h with ⟨_, hr⟩ | ⟨_, _, _, _, _, hr⟩ |
      ⟨first, second, rest, hm', hdue, _, hr⟩ | ⟨first, second, rest, r', hm', hdue, _, hr', hr⟩
    · rw [hr]; simp
    · rw [hr]; simp
    · rw [hr]; intro ic hic
      exact le_trans hclock (call_inserted_now _ _ _ ic hic)
    · rw [hr]; intro ic hic
      rcases List.mem_append.mp hic with hic | hic
      · exact le_trans hclock (call_inserted_now _ _ _ ic hic)
      · exact ih _ _ r' (le_trans hclock (call_clock_le _ _ _)) hr' ic hic

theorem key_mem_erase_of_ne (key k : time_point) (m : action_map)
    (h : k ∈ m.map Prod.fst) (hne : k ≠ key) : k ∈ (erase key m).map Prod.fst := by
  obtain ⟨e, he, hk⟩ := List.mem_map.mp h
  exact List.mem_map.mpr ⟨e, mem_erase_of_ne key m e he (by rw [hk]; exact hne), hk⟩

theorem update_loop_key_stays (fuel : Nat) (T clock k : time_point) (m : action_map)
    (r : update_result) (hk : k ∈ m.map Prod.fst) (hlate : T < k)
    (h : update_loop fuel T clock m = some r) : k ∈ r.actions.map Prod.fst := by
  induction fuel generalizing clock m r with
  | zero => simp [update_loop] at h
  | succ n ih =>
    have hcall : ∀ a, k ∈ (call a clock m).actions.map Prod.fst := by
      intro a
      obtain ⟨e, he, hke⟩ := List.mem_map.mp hk
      exact List.mem_map.mpr ⟨e, call_mem_of_mem a clock m e he, hke⟩
    rcases update_loop_cases n T clock m r h with ⟨hm', hr⟩ | ⟨_, _, _, _, _, hr⟩ |
      ⟨first, second, rest, hm', hdue, _, hr⟩ | ⟨first, second, rest, r', hm', hdue, _, hr', hr⟩
    · rw [hm'] at hk; simp at hk
    · rw [hr]; exact hk
    · rw [hr]; exact hcall second
    · rw [hr]
      refine ih _ _ r' (key_mem_erase_of_ne first k _ (hcall second) ?_) hr'
      exact ne_of_gt (lt_of_le_of_lt hdue hlate)

theorem update_loop_inserted_key_stays (fuel : Nat) (T clock : time_point) (m : action_map)
    (r : update_result) (h : update_loop fuel T clock m = some r) (ic : insert_call)
    (hic : ic ∈ r.inserted) (hlate : T < fire_instant ic.now ic.wait_time) :
    fire_instant ic.now ic.wait_time ∈ r.actions.map Prod.fst := by
  induction fuel generalizing clock m r with
  | zero => simp [update_loop] at h
  | succ n ih =>
    rcases update_loop_cases n T clock m r h with ⟨_, hr⟩ | ⟨_, _, _, _, _, hr⟩ |
      ⟨first, second, rest, hm', hdue, _, hr⟩ | ⟨first, second, rest, r', hm', hdue, _, hr', hr⟩
    · rw [hr] at hic; simp at hic
    · rw [hr] at hic; simp at hic
    · rw [hr] at hic ⊢
      exact call_inserted_key_mem _ _ _ ic hic
    · rw [hr] at hic ⊢
      rcases List.mem_append.mp hic with hic | hic
      · refine update_loop_key_stays n T _ _ _ r' (key_mem_erase_of_ne first _ _
          (call_inserted_key_mem _ _ _ ic hic) ?_) hlate hr'
        exact ne_of_gt (lt_of_le_of_lt hdue hlate)
      · exact ih _ _ r' hr' hic

/-- C3 as stated fails: at the snapshot 5 the function stored under key 0 calls `insert`
with delay 0 while the clock still reads 5, the new entry gets key 5, and the same `update`
calls it before returning. -/
theorem inserted_during_update_runs_in_same_update :
    (delayed_action_handler.mk
      [(0, action.insert 0 0 (action.effect 2 action.ret) action.ret)]).update 5
    = some ⟨outcome.returned,
        [(0, action.insert 0 0 (action.effect 2 action.ret) action.ret),
         (5, action.effect 2 action.ret)],
        [⟨5, 0, action.effect 2 action.ret⟩], 5, []⟩ := by
  with_unfolding_all decide

/-- C3, amended: an `insert` made by a running stored function during `update` reads the
clock at or after the snapshot `T`; when its computed `fire_instant` is later than `T`, which
is so for every delay `≥ 0` whose product with 1000 is within the range of `int`, once the
clock reads later than `T` or the delay is at least one millisecond, no entry of that key is
called in this `update` and an entry of that key is in the map when `update` ends. -/
theorem inserted_during_update_waits (self : delayed_action_handler) (T : time_point)
    (hwf : well_formed self.actions) :
    ∃ r, self.update T = some r ∧ ∀ ic ∈ r.inserted,
      T ≤ ic.now ∧
      (0 ≤ ic.wait_time → delay_product ic.wait_time < 2147483648 →
        (T < ic.now ∨ 1 / 1000 ≤ ic.wait_time) → T < fire_instant ic.now ic.wait_time) ∧
      (T < fire_instant ic.now ic.wait_time →
        (∀ e ∈ r.executed, e.1 ≠ fire_instant ic.now ic.wait_time) ∧
        fire_instant ic.now ic.wait_time ∈ r.actions.map Prod.fst) := by
  obtain ⟨r, hr⟩ := update_loop_total (weight self.actions + 1) T T self.actions hwf
    (Nat.lt_succ_self _)
  refine ⟨r, hr, fun ic hic => ?_⟩
  have hnow := update_loop_inserted_now _ T T _ r (le_refl _) hr ic hic
  refine ⟨hnow, ?_, ?_⟩
  · intro hw hrange hor
    rcases hor with h1 | h1
    · exact lt_of_lt_of_le h1 (fire_instant_ge _ _ hw hrange)
    · have := fire_instant_ge_of_ms ic.now ic.wait_time h1 hrange
      linarith
  · intro hlate
    refine ⟨?_, update_loop_inserted_key_stays _ T T _ r hr ic hic hlate⟩
    intro e he heq
    have := update_loop_executed_le _ T T _ r hr e he
    rw [heq] at this
    exact absurd hlate (not_lt.mpr this)

theorem inserted_during_update_waits_witness :
    well_formed [(0, action.insert 1 0 (action.effect 2 action.ret) action.ret)] ∧
    ∃ r, (delayed_action_handler.mk
        [(0, action.insert 1 0 (action.effect 2 action.ret) action.ret)]).update 5 = some r ∧
      ∀ ic ∈ r.inserted,
        5 ≤ ic.now ∧
        (0 ≤ ic.wait_time → delay_product ic.wait_time < 2147483648 →
          (5 < ic.now ∨ 1 / 1000 ≤ ic.wait_time) → 5 < fire_instant ic.now ic.wait_time) ∧
        (5 < fire_instant ic.now ic.wait_time →
          (∀ e ∈ r.executed, e.1 ≠ fire_instant ic.now ic.wait_time) ∧
          fire_instant ic.now ic.wait_time ∈ r.actions.map Prod.fst) :=
  ⟨by decide, inserted_during_update_waits
    ⟨[(0, action.insert 1 0 (action.effect 2 action.ret) action.ret)]⟩ 5 (by decide)⟩

/-- C4 as stated fails: an action inserted at clock reading 0 with a delay of 1/1024 s
(about 0.98 ms) gets key 0, and an `update` whose snapshot is 0, earlier than the 976562.5
ticks the delay asks for, calls it. -/
theorem update_fires_before_delay_elapsed :
    ((delayed_action_handler.mk []).insert 0 (1 / 1024) (action.effect 1 action.ret)).update 0
      = some ⟨outcome.returned, [(0, action.effect 1 action.ret)], [], 0, []⟩ ∧
    (((0 : time_point) : ℚ) < ((0 : time_point) : ℚ) + 1 / 1024 * 1000000000) := by
  refine ⟨by decide!, by norm_num⟩

/-- C4, amended: `insert` at clock reading `t` with a delay `d ≥ 0` (a `float` whose
product with 1000 is within the range of `int`) stores the action under `t` plus the whole
milliseconds of `d*1000` as single precision rounds it, an instant later than
`t + d * (1 - 2^-24) - 1 ms`; no `update` whose snapshot is earlier than that instant calls
an entry stored under it. The action thus fires less than one millisecond, and one part in
2^24 of the delay, before `t + d` at the earliest. -/
theorem insert_fires_no_earlier_than_truncated_delay (self : delayed_action_handler)
    (t : time_point) (d : ℚ) (lambda : action) (hd : 0 ≤ d) (hfloat : round_float d = d)
    (hrange : round_float (d * 1000) < 2147483648) :
    (self.insert t d lambda).actions = emplace (fire_instant t d) lambda self.actions ∧
    fire_instant t d = t + ⌊round_float (d * 1000)⌋ * 1000000 ∧
    ((t : ℤ) : ℚ) + (d - d / 16777216) * 1000000000 - 1000000
      < ((fire_instant t d : ℤ) : ℚ) ∧
    ∀ (later : delayed_action_handler) (T : time_point) (r : update_result),
      later.update T = some r → T < fire_instant t d →
        ∀ e ∈ r.executed, e.1 ≠ fire_instant t d := by
  have hdp := delay_product_of_float d hfloat
  have hf : fire_instant t d = t + ⌊round_float (d * 1000)⌋ * 1000000 := by
    rw [fire_instant_eq_floor t d hd (by rw [hdp]; exact hrange), hdp]
  obtain ⟨b1, _⟩ := floor_product_bounds d hd
  refine ⟨rfl, hf, ?_, ?_⟩
  · rw [hf]; push_cast; linarith
  · intro later T r hr hlt e he heq
    have := update_loop_executed_le _ T T _ r hr e he
    rw [heq] at this
    exact absurd hlt (not_lt.mpr this)

theorem insert_fires_no_earlier_than_truncated_delay_witness :
    (0 : ℚ) ≤ 3 / 2048 ∧ round_float (3 / 2048) = 3 / 2048 ∧
    round_float ((3 / 2048 : ℚ) * 1000) < 2147483648 ∧
    fire_instant 10 (3 / 2048) = 10 + ⌊round_float ((3 / 2048 : ℚ) * 1000)⌋ * 1000000 ∧
    ∀ (later : delayed_action_handler) (T : time_point) (r : update_result),
      later.update T = some r → T < fire_instant 10 (3 / 2048) →
        ∀ e ∈ r.executed, e.1 ≠ fire_instant 10 (3 / 2048) :=
  ⟨by norm_num, by decide!, by decide!,
    (insert_fires_no_earlier_than_truncated_delay ⟨[]⟩ 10 (3 / 2048) action.ret
      (by norm_num) (by decide!) (by decide!)).2.1,
    (insert_fires_no_earlier_than_truncated_delay ⟨[]⟩ 10 (3 / 2048) action.ret
      (by norm_num) (by decide!) (by decide!)).2.2.2⟩

theorem head_key_le (first : time_point) (second : action) (rest : action_map)
    (hwf : well_formed ((first, second) :: rest)) (x : time_point × action)
    (hx : x ∈ (first, second) :: rest) : first ≤ x.1 := by
  unfold well_formed at hwf
  rw [List.pairwise_cons] at hwf
  rcases List.mem_cons.mp hx with hx | hx
  · rw [hx]
  · exact le_of_lt (hwf.1 x hx)

theorem eq_head_of_key_eq (first : time_point) (second : action) (rest : action_map)
    (hwf : well_formed ((first, second) :: rest)) (x : time_point × action)
    (hx : x ∈ (first, second) :: rest) (hk : x.1 = first) : x = (first, second) := by
  unfold well_formed at hwf
  rw [List.pairwise_cons] at hwf
  rcases List.mem_cons.mp hx with hx | hx
  · exact hx
  · exact absurd hk (ne_of_gt (hwf.1 x hx))

/-- An entry that is in the map when `update` starts is, when it ends, either among the
entries called or still in the map. -/
theorem update_loop_conserves (fuel : Nat) (T clock : time_point) (m : action_map)
    (r : update_result) (hwf : well_formed m) (e : time_point × action) (he : e ∈ m)
    (h : update_loop fuel T clock m = some r) : e ∈ r.executed ∨ e ∈ r.actions := by
  induction fuel generalizing clock m r with
  | zero => simp [update_loop] at h
  | succ n ih =>
    rcases update_loop_cases n T clock m r h with ⟨hm', hr⟩ | ⟨_, _, _, _, _, hr⟩ |
      ⟨first, second, rest, hm', hdue, _, hr⟩ | ⟨first, second, rest, r', hm', hdue, _, hr', hr⟩
    · rw [hm'] at he; cases he
    · rw [hr]; exact Or.inr he
    · rw [hr]; exact Or.inr (call_mem_of_mem _ _ _ e he)
    · rw [hr]
      by_cases hk : e.1 = first
      · have : e = (first, second) := by
          rw [hm'] at he hwf
          exact eq_head_of_key_eq first second rest hwf e he hk
        rw [this]; exact Or.inl (List.mem_cons_self _ _)
      · have he' : e ∈ erase first (call second clock m).actions :=
          mem_erase_of_ne _ _ e (call_mem_of_mem _ _ _ e he) hk
        rcases ih _ _ r' (well_formed_erase _ _ (call_well_formed _ _ _ hwf)) he' hr' with h1 | h1
        · exact Or.inl (List.mem_cons_of_mem _ h1)
        · exact Or.inr h1

/-- While an entry is in the map, `update` calls no entry of a larger key: whenever an entry
of key `k2` is called, every pending entry of a smaller key has been called before it in
the same `update`. -/
theorem update_loop_earlier_first (fuel : Nat) (T clock : time_point) (m : action_map)
    (r : update_result) (hwf : well_formed m) (e1 : time_point × action) (he1 : e1 ∈ m)
    (k2 : time_point) (hlt : e1.1 < k2) (h : update_loop fuel T clock m = some r) :
    ∀ (before after : List (time_point × action)) (v2 : action),
      r.executed = before ++ (k2, v2) :: after → e1 ∈ before := by
  induction fuel generalizing clock m r with
  | zero => simp [update_loop] at h
  | succ n ih =>
    rcases update_loop_cases n T clock m r h with ⟨hm', hr⟩ | ⟨_, _, _, _, _, hr⟩ |
      ⟨first, second, rest, hm', hdue, _, hr⟩ | ⟨first, second, rest, r', hm', hdue, _, hr', hr⟩
    · rw [hm'] at he1; cases he1
    · rw [hr]; intro before after v2 hex
      simp at hex
    · rw [hr]; intro before after v2 hex
      have hle : first ≤ e1.1 := by
        rw [hm'] at he1 hwf
        exact head_key_le first second rest hwf e1 he1
      cases before with
      | nil =>
        simp only [List.nil_append, List.cons.injEq, Prod.mk.injEq] at hex
        have := hex.1.1
        rw [this] at hle
        exact absurd hlt (not_lt.mpr hle)
      | cons b bs =>
        simp only [List.cons_append, List.cons.injEq] at hex
        have := hex.2
        simp at this
    · rw [hr]; intro before after v2 hex
      have hle : first ≤ e1.1 := by
        rw [hm'] at he1 hwf
        exact head_key_le first second rest hwf e1 he1
      cases before with
      | nil =>
        simp only [List.nil_append, List.cons.injEq, Prod.mk.injEq] at hex
        have := hex.1.1
        rw [this] at hle
        exact absurd hlt (not_lt.mpr hle)
      | cons b bs =>
        simp only [List.cons_append, List.cons.injEq] at hex
        obtain ⟨hb, hex'⟩ := hex
        by_cases hk : e1.1 = first
        · have : e1 = (first, second) := by
            rw [hm'] at he1 hwf
            exact eq_head_of_key_eq first second rest hwf e1 he1 hk
          rw [this, hb]; exact List.mem_cons_self _ _
        · have he' : e1 ∈ erase first (call second clock m).actions :=
            mem_erase_of_ne _ _ e1 (call_mem_of_mem _ _ _ e1 he1) hk
          exact List.mem_cons_of_mem _
            (ih _ _ r' (well_formed_erase _ _ (call_well_formed _ _ _ hwf)) he' hr'
              bs after v2 hex')

theorem insert_well_formed (self : delayed_action_handler) (now : time_point) (w : ℚ)
    (lam : action) (hwf : well_formed self.actions) :
    well_formed (self.insert now w lam).actions :=
  well_formed_emplace _ _ _ hwf

theorem update_total (self : delayed_action_handler) (T : time_point)
    (hwf : well_formed self.actions) : ∃ r, self.update T = some r :=
  update_loop_total (weight self.actions + 1) T T self.actions hwf (Nat.lt_succ_self _)

theorem run_calls_total (calls : List request) (self : delayed_action_handler)
    (hwf : well_formed self.actions) : ∃ trace, run_calls calls self = some trace := by
  induction calls generalizing self with
  | nil => exact ⟨[], rfl⟩
  | cons c rest ih =>
    cases c with
    | insert now w lam =>
      simp only [run_calls]
      exact ih _ (insert_well_formed self now w lam hwf)
    | poll T =>
      obtain ⟨r, hr⟩ := update_total self T hwf
      obtain ⟨trace, ht⟩ := ih ⟨r.actions⟩ (update_loop_well_formed _ T T _ r hwf hr)
      exact ⟨r.executed :: trace, by simp only [run_calls, hr, ht]⟩

theorem run_calls_earlier_first (calls : List request) (self : delayed_action_handler)
    (hwf : well_formed self.actions) (e1 : time_point × action) (he1 : e1 ∈ self.actions)
    (k2 : time_point) (hlt : e1.1 < k2) :
    ∃ fired, run_calls calls self = some fired ∧
      ∀ (j : Nat) (before after : List (time_point × action)) (v2 : action),
        fired[j]? = some (before ++ (k2, v2) :: after) →
          e1 ∈ before ∨ ∃ i, i < j ∧ ∃ p, fired[i]? = some p ∧ e1 ∈ p := by
  induction calls generalizing self with
  | nil =>
    refine ⟨[], rfl, ?_⟩
    intro j before after v2 hj
    simp at hj
  | cons c rest ih =>
    cases c with
    | insert now w lam =>
      simp only [run_calls]
      exact ih _ (insert_well_formed self now w lam hwf) (mem_emplace_of_mem _ _ _ _ he1)
    | poll T =>
      obtain ⟨r, hr⟩ := update_total self T hwf
      have hwf' : well_formed r.actions := update_loop_well_formed _ T T _ r hwf hr
      have hfirst := update_loop_earlier_first _ T T _ r hwf e1 he1 k2 hlt hr
      rcases update_loop_conserves _ T T _ r hwf e1 he1 hr with hex | hact
      · obtain ⟨fired, ht⟩ := run_calls_total rest ⟨r.actions⟩ hwf'
        refine ⟨r.executed :: fired, by simp only [run_calls, hr, ht], ?_⟩
        intro j before after v2 hj
        cases j with
        | zero =>
          simp only [List.getElem?_cons_zero, Option.some.injEq] at hj
          exact Or.inl (hfirst before after v2 hj)
        | succ j' =>
          exact Or.inr ⟨0, Nat.succ_pos _, r.executed, by simp, hex⟩
      · obtain ⟨fired, ht, hP⟩ := ih ⟨r.actions⟩ hwf' hact
        refine ⟨r.executed :: fired, by simp only [run_calls, hr, ht], ?_⟩
        intro j before after v2 hj
        cases j with
        | zero =>
          simp only [List.getElem?_cons_zero, Option.some.injEq] at hj
          exact Or.inl (hfirst before after v2 hj)
        | succ j' =>
          simp only [List.getElem?_cons_succ] at hj
          rcases hP j' before after v2 hj with h1 | ⟨i, hi, p, hp, hmem⟩
          · exact Or.inl h1
          · exact Or.inr ⟨i + 1, Nat.succ_lt_succ hi, p, by simpa using hp, hmem⟩

/-- C8 as stated fails: the action of delay 1/8 s is inserted when the clock reads
200000000 ticks, after the action of delay 1/4 s inserted at clock reading 0; the longer
delay is due first, and the `update` at 300000000 calls it alone, the shorter delay being
called by the following `update` only. -/
theorem shorter_delay_may_fire_in_later_update :
    run_calls [request.insert 0 (1 / 4) (action.effect 2 action.ret),
        request.insert 200000000 (1 / 8) (action.effect 1 action.ret),
        request.poll 300000000, request.poll 400000000] ⟨[]⟩
      = some [[(250000000, action.effect 2 action.ret)],
          [(325000000, action.effect 1 action.ret)]] ∧
    ((1 : ℚ) / 8 < 1 / 4) := by
  refine ⟨by decide!, by norm_num⟩

/-- C8, amended: when the action inserted at clock reading `t1` with delay `d1` is pending
and its computed `fire_instant` is earlier than the one computed for clock reading `t2` and
delay `d2` (which, for both inserts reading the same clock value, is so when the whole
milliseconds computed for `d1` are fewer than those computed for `d2`), then in every following sequence of calls on the
handler an `update` that calls an entry stored under the second instant has called the
first action before it, or an earlier `update` has. -/
theorem earlier_fire_instant_fires_first (self : delayed_action_handler)
    (t1 t2 : time_point) (d1 d2 : ℚ) (lambda1 : action) (calls : List request)
    (hwf : well_formed self.actions)
    (hpending : (fire_instant t1 d1, lambda1) ∈ self.actions)
    (hlt : fire_instant t1 d1 < fire_instant t2 d2) :
    ∃ fired, run_calls calls self = some fired ∧
      ∀ (j : Nat) (before after : List (time_point × action)) (lambda2 : action),
        fired[j]? = some (before ++ (fire_instant t2 d2, lambda2) :: after) →
          (fire_instant t1 d1, lambda1) ∈ before ∨
          ∃ i, i < j ∧ ∃ p, fired[i]? = some p ∧ (fire_instant t1 d1, lambda1) ∈ p :=
  run_calls_earlier_first calls self hwf (fire_instant t1 d1, lambda1) hpending
    (fire_instant t2 d2) hlt

theorem earlier_fire_instant_fires_first_witness :
    well_formed (((delayed_action_handler.mk []).insert 0 (1 / 10)
      (action.effect 2 action.ret)).insert 0 (1 / 20) (action.effect 1 action.ret)).actions ∧
    (fire_instant 0 (1 / 20), action.effect 1 action.ret) ∈
      (((delayed_action_handler.mk []).insert 0 (1 / 10)
        (action.effect 2 action.ret)).insert 0 (1 / 20) (action.effect 1 action.ret)).actions ∧
    fire_instant 0 (1 / 20) < fire_instant 0 (1 / 10) ∧
    ∃ fired, run_calls [request.poll 60000000, request.poll 200000000]
        (((delayed_action_handler.mk []).insert 0 (1 / 10)
          (action.effect 2 action.ret)).insert 0 (1 / 20) (action.effect 1 action.ret))
        = some fired ∧
      ∀ (j : Nat) (before after : List (time_point × action)) (lambda2 : action),
        fired[j]? = some (before ++ (fire_instant 0 (1 / 10), lambda2) :: after) →
          (fire_instant 0 (1 / 20), action.effect 1 action.ret) ∈ before ∨
          ∃ i, i < j ∧ ∃ p, fired[i]? = some p ∧
            (fire_instant 0 (1 / 20), action.effect 1 action.ret) ∈ p :=
  ⟨by decide!, by decide!, by decide!,
    earlier_fire_instant_fires_first
      (((delayed_action_handler.mk []).insert 0 (1 / 10)
        (action.effect 2 action.ret)).insert 0 (1 / 20) (action.effect 1 action.ret))
      0 0 (1 / 20) (1 / 10) (action.effect 1 action.ret)
      [request.poll 60000000, request.poll 200000000]
      (by decide!) (by decide!) (by decide!)⟩

/-- C2 at its failing input: into the empty handler, `insert(0.5, A)` when the clock reads 0
and `insert(0.25, B)` when it reads 250000000 compute the same `fire_instant` 500000000; the
map holds one entry after the first call and still one after the second, the handler is
unchanged by the second call, and the `update` at 600000000 calls `A` only. -/
theorem second_insert_at_same_instant_is_dropped :
    ((delayed_action_handler.mk []).insert 0 (1 / 2) (action.effect 1 action.ret)).actions.length
      = 1 ∧
    (((delayed_action_handler.mk []).insert 0 (1 / 2) (action.effect 1 action.ret)).insert
      250000000 (1 / 4) (action.effect 2 action.ret)).actions.length = 1 ∧
    ((delayed_action_handler.mk []).insert 0 (1 / 2) (action.effect 1 action.ret)).insert
      250000000 (1 / 4) (action.effect 2 action.ret)
      = (delayed_action_handler.mk []).insert 0 (1 / 2) (action.effect 1 action.ret) ∧
    (((delayed_action_handler.mk []).insert 0 (1 / 2) (action.effect 1 action.ret)).insert
      250000000 (1 / 4) (action.effect 2 action.ret)).update 600000000
      = some ⟨outcome.returned, [(500000000, action.effect 1 action.ret)], [], 600000000, []⟩ := by
  decide!

/-- C6 at its failing input: `A` inserted with delay 0.75 s at clock reading 0 and `B`
inserted with delay 0.25 s at clock reading 500000000 have the same `fire_instant`
750000000; the `update` at 800000000 calls `A` and nothing else, and the next `update`
calls nothing: `B` does not fire after `A`, it does not fire at all. -/
theorem tie_is_not_first_in_first_out :
    fire_instant 0 (3 / 4) = fire_instant 500000000 (1 / 4) ∧
    run_calls [request.insert 0 (3 / 4) (action.effect 1 action.ret),
        request.insert 500000000 (1 / 4) (action.effect 2 action.ret),
        request.poll 800000000, request.poll 900000000] ⟨[]⟩
      = some [[(750000000, action.effect 1 action.ret)], []] := by
  decide!

/-- C9 at its failing input: with `A` pending under the key 125000000, `insert(0, B)` made
when the clock reads 125000000 leaves the handler as it was, and the next `update`, taken
at that same reading, calls `A` and not `B`. -/
theorem insert_with_zero_delay_may_be_dropped :
    (delayed_action_handler.mk [(125000000, action.effect 1 action.ret)]).insert
      125000000 0 (action.effect 2 action.ret)
      = delayed_action_handler.mk [(125000000, action.effect 1 action.ret)] ∧
    ((delayed_action_handler.mk [(125000000, action.effect 1 action.ret)]).insert
      125000000 0 (action.effect 2 action.ret)).update 125000000
      = some ⟨outcome.returned, [(125000000, action.effect 1 action.ret)], [],
          125000000, []⟩ := by
  decide!

theorem update_loop_nothing_due (n : Nat) (T clock : time_point) (m : action_map)
    (hlate : ∀ e ∈ m, T < e.1) :
    update_loop (n + 1) T clock m = some ⟨outcome.returned, [], [], clock, m⟩ := by
  cases m with
  | nil => rfl
  | cons hd rest =>
    obtain ⟨first, second⟩ := hd
    have h1 : ¬ first ≤ T := not_le.mpr (hlate (first, second) (List.mem_cons_self _ _))
    simp only [update_loop, if_neg h1]

/-- C11 as stated fails: the stored function under key 2 does not insert, but it throws;
the `update` at 5 calls it and is left by the exception with the entry still in the map, and
a second `update` at the same 5 on the map it left calls the same function again. -/
theorem second_update_calls_throwing_callback_again :
    (delayed_action_handler.mk [(2, action.effect 1 action.raise)]).update 5
      = some ⟨outcome.threw, [(2, action.effect 1 action.raise)], [], 5,
          [(2, action.effect 1 action.raise)]⟩ ∧
    run_calls [request.poll 5, request.poll 5] ⟨[(2, action.effect 1 action.raise)]⟩
      = some [[(2, action.effect 1 action.raise)], [(2, action.effect 1 action.raise)]] := by
  decide

/-- C11, amended: `update` is idempotent at a fixed instant. With stored functions that neither call
`insert` nor throw, one `update` at the snapshot `T` returns, and a second `update` at the
same `T` on the map it left calls nothing, makes no change, and returns that same map. -/
theorem update_twice_at_same_instant (self : delayed_action_handler) (T : time_point)
    (hwf : well_formed self.actions)
    (hplain : ∀ e ∈ self.actions, e.2.plain = true) :
    ∃ r, self.update T = some r ∧ r.status = outcome.returned ∧
      (delayed_action_handler.mk r.actions).update T
        = some ⟨outcome.returned, [], [], T, r.actions⟩ := by
  have hlen : self.actions.length < weight self.actions + 1 :=
    Nat.lt_succ_of_le (length_le_weight _)
  refine ⟨_, update_loop_plain T T self.actions _ hlen hwf hplain, rfl, ?_⟩
  apply update_loop_nothing_due
  intro e he
  simpa using (List.mem_filter.mp he).2

theorem update_twice_at_same_instant_witness :
    well_formed [(1, action.ret), (3, action.effect 7 action.ret), (9, action.ret)] ∧
    (∀ e ∈ [(1, action.ret), (3, action.effect 7 action.ret), (9, action.ret)],
      e.2.plain = true) ∧
    ∃ r, (delayed_action_handler.mk
        [(1, action.ret), (3, action.effect 7 action.ret), (9, action.ret)]).update 5 = some r ∧
      r.status = outcome.returned ∧
      (delayed_action_handler.mk r.actions).update 5
        = some ⟨outcome.returned, [], [], 5, r.actions⟩ :=
  ⟨by decide, by decide, update_twice_at_same_instant
    ⟨[(1, action.ret), (3, action.effect 7 action.ret), (9, action.ret)]⟩ 5
    (by decide) (by decide)⟩

theorem fire_instant_of_ticks (t : time_point) (d : ℚ) (k : Int)
    (h : milliseconds (float_to_int (delay_product d)) = k) : fire_instant t d = t + k := by
  unfold fire_instant
  rw [h]

theorem update_plain (self : delayed_action_handler) (T : time_point)
    (hwf : well_formed self.actions) (hplain : ∀ e ∈ self.actions, e.2.plain = true) :
    self.update T = some ⟨outcome.returned, self.actions.filter (fun e => decide (e.1 ≤ T)),
      [], T, self.actions.filter (fun e => decide (T < e.1))⟩ :=
  update_loop_plain T T self.actions _ (Nat.lt_succ_of_le (length_le_weight _)) hwf hplain

/-- C12 as stated fails: `A` (0.1 s) and `B` (0.05 s) are inserted at clock reading 0 and
`C` (0.2 s) at 10 ms; the `update` at 150 ms calls `B` then `A`; the `update` at 205 ms,
past `t0 + 0.2 s`, calls nothing, `C` being stored under 210 ms; `C` is called by the third
`update`, at 300 ms. -/
theorem second_poll_may_miss_last_action :
    run_calls [request.insert 0 (1 / 10) (action.effect 1 action.ret),
        request.insert 0 (1 / 20) (action.effect 2 action.ret),
        request.insert 10000000 (1 / 5) (action.effect 3 action.ret),
        request.poll 150000000, request.poll 205000000, request.poll 300000000] ⟨[]⟩
      = some [[(50000000, action.effect 2 action.ret), (100000000, action.effect 1 action.ret)],
          [], [(210000000, action.effect 3 action.ret)]] := by
  decide!

/-- C12, amended: the end-to-end scenario. Into the empty handler `A` is inserted with delay 0.1 s
at clock reading `t0`, then `B` with delay 0.05 s at `tB` and `C` with delay 0.2 s at `tC`,
the three readings non-decreasing and less than 50 ms apart; the functions neither insert
nor throw. An `update` whose snapshot is at or past `t0 + 0.1 s` and before `t0 + 0.2 s`
calls exactly `B` then `A` and leaves `C` alone in the map; an `update` at or past
`tC + 0.2 s` then calls exactly `C`; a third `update` calls nothing and the map is empty. -/
theorem three_delays_scenario (t0 tB tC T1 T2 T3 : time_point) (a b c : action)
    (ha : a.plain = true) (hb : b.plain = true) (hc : c.plain = true)
    (h0B : t0 ≤ tB) (hBC : tB ≤ tC) (hnear : tC < t0 + 50000000)
    (h1 : t0 + 100000000 ≤ T1) (h1' : T1 < t0 + 200000000)
    (h2 : tC + 200000000 ≤ T2) :
    ((((delayed_action_handler.mk []).insert t0 (1 / 10) a).insert tB (1 / 20) b).insert
        tC (1 / 5) c).actions
      = [(tB + 50000000, b), (t0 + 100000000, a), (tC + 200000000, c)] ∧
    ((((delayed_action_handler.mk []).insert t0 (1 / 10) a).insert tB (1 / 20) b).insert
        tC (1 / 5) c).update T1
      = some ⟨outcome.returned, [(tB + 50000000, b), (t0 + 100000000, a)], [], T1,
          [(tC + 200000000, c)]⟩ ∧
    (delayed_action_handler.mk [(tC + 200000000, c)]).update T2
      = some ⟨outcome.returned, [(tC + 200000000, c)], [], T2, []⟩ ∧
    (delayed_action_handler.mk []).update T3 = some ⟨outcome.returned, [], [], T3, []⟩ ∧
    run_calls [request.insert t0 (1 / 10) a, request.insert tB (1 / 20) b,
        request.insert tC (1 / 5) c, request.poll T1, request.poll T2, request.poll T3] ⟨[]⟩
      = some [[(tB + 50000000, b), (t0 + 100000000, a)], [(tC + 200000000, c)], []] := by
  have fa : fire_instant t0 (1 / 10) = t0 + 100000000 :=
    fire_instant_of_ticks t0 (1 / 10) 100000000 (by decide!)
  have fb : fire_instant tB (1 / 20) = tB + 50000000 :=
    fire_instant_of_ticks tB (1 / 20) 50000000 (by decide!)
  have fc : fire_instant tC (1 / 5) = tC + 200000000 :=
    fire_instant_of_ticks tC (1 / 5) 200000000 (by decide!)
  have hba : tB + 50000000 < t0 + 100000000 := by linarith
  have hcb : ¬ tC + 200000000 < tB + 50000000 := by linarith
  have hcb' : ¬ tC + 200000000 = tB + 50000000 := by
    intro h; linarith
  have hca : ¬ tC + 200000000 < t0 + 100000000 := by linarith
  have hca' : ¬ tC + 200000000 = t0 + 100000000 := by
    intro h; linarith
  have hstate : ((((delayed_action_handler.mk []).insert t0 (1 / 10) a).insert
      tB (1 / 20) b).insert tC (1 / 5) c)
      = ⟨[(tB + 50000000, b), (t0 + 100000000, a), (tC + 200000000, c)]⟩ := by
    simp only [delayed_action_handler.insert, fa, fb, fc, emplace, if_pos hba, if_neg hcb,
      if_neg hcb', if_neg hca, if_neg hca']
  have hwf : well_formed [(tB + 50000000, b), (t0 + 100000000, a), (tC + 200000000, c)] := by
    unfold well_formed
    simp only [List.pairwise_cons, List.mem_cons, List.mem_singleton, List.not_mem_nil,
      forall_eq_or_imp, forall_eq, false_imp_iff, implies_true, List.Pairwise.nil, and_true]
    refine ⟨⟨hba, ?_⟩, ?_⟩ <;> linarith
  have hpl : ∀ e ∈ [(tB + 50000000, b), (t0 + 100000000, a), (tC + 200000000, c)],
      e.2.plain = true := by
    intro e he
    simp only [List.mem_cons, List.mem_singleton, List.not_mem_nil, or_false] at he
    rcases he with he | he | he <;> rw [he] <;> assumption
  have hb1 : tB + 50000000 ≤ T1 := by linarith
  have hc1 : ¬ tC + 200000000 ≤ T1 := by linarith
  have hb1' : ¬ T1 < tB + 50000000 := by linarith
  have ha1' : ¬ T1 < t0 + 100000000 := by linarith
  have hc1' : T1 < tC + 200000000 := by linarith
  have hu1 : (delayed_action_handler.mk
      [(tB + 50000000, b), (t0 + 100000000, a), (tC + 200000000, c)]).update T1
      = some ⟨outcome.returned, [(tB + 50000000, b), (t0 + 100000000, a)], [], T1,
          [(tC + 200000000, c)]⟩ := by
    rw [update_plain _ T1 hwf hpl]
    simp [List.filter, hb1, h1, hc1, hb1', ha1', hc1']
  have hu2 : (delayed_action_handler.mk [(tC + 200000000, c)]).update T2
      = some ⟨outcome.returned, [(tC + 200000000, c)], [], T2, []⟩ := by
    rw [update_plain _ T2 (by simp [well_formed])
      (by intro e he; simp only [List.mem_singleton] at he; rw [he]; exact hc)]
    simp [List.filter, h2, not_lt.mpr h2]
  have hu3 : (delayed_action_handler.mk []).update T3
      = some ⟨outcome.returned, [], [], T3, []⟩ := rfl
  refine ⟨by rw [hstate], by rw [hstate]; exact hu1, hu2, hu3, ?_⟩
  simp only [run_calls]
  rw [hstate, hu1]
  simp only [hu2, hu3]

theorem three_delays_scenario_witness :
    run_calls [request.insert 0 (1 / 10) (action.effect 1 action.ret),
        request.insert 0 (1 / 20) (action.effect 2 action.ret),
        request.insert 0 (1 / 5) (action.effect 3 action.ret),
        request.poll 150000000, request.poll 250000000, request.poll 300000000] ⟨[]⟩
      = some [[(0 + 50000000, action.effect 2 action.ret),
          (0 + 100000000, action.effect 1 action.ret)],
        [(0 + 200000000, action.effect 3 action.ret)], []] :=
  (three_delays_scenario 0 0 0 150000000 250000000 300000000
    (action.effect 1 action.ret) (action.effect 2 action.ret) (action.effect 3 action.ret)
    rfl rfl rfl (by decide) (by decide) (by decide) (by decide) (by decide)
    (by decide)).2.2.2.2

/-! ## The class `timer` -/

theorem duration_cast_of_nonneg (d : Int) (h : 0 ≤ d) : duration_cast_microseconds d = d / 1000 :=
  Int.tdiv_eq_ediv h (by decide)

theorem duration_cast_of_neg (d : Int) (h : d ≤ 0) :
    duration_cast_microseconds d = -((-d) / 1000) := by
  unfold duration_cast_microseconds
  have h1 : d = -(-d) := (neg_neg d).symm
  rw [h1, Int.neg_tdiv, Int.tdiv_eq_ediv (by omega) (by decide), neg_neg]

/-- C13 as stated fails: a timer built as in the class comment, `timer _("test")`, has
`output` set, and when its scope ends 100132 microseconds later it writes the line of the
class comment, `0.100132 <- test`. -/
theorem labelled_timer_reports_by_default :
    (timer.ctor "test" none 0).output = true ∧
    (timer.ctor "test" none 0).destructor 100132000
      = [stream_item.number (100132 / 1000000), stream_item.text " <- ",
          stream_item.text "test", stream_item.endl] := by
  refine ⟨rfl, ?_⟩
  have h : (timer.ctor "test" none 0).until_now 100132000 = 100132 / 1000000 := by
    simp only [timer.until_now, timer.ctor, timer.reset, sub_zero]
    rw [duration_cast_of_nonneg _ (by decide)]
    norm_num
  simp only [timer.destructor, h]
  rfl

/-- C13, amended: a timer constructed with a label and no second argument has `output`
true, the default of the declaration, and reports when its scope ends; a second argument,
when given, is the value of `output`; only the constructor without arguments sets `output`
to false, and such a timer writes nothing when its scope ends. -/
theorem timer_output_defaults (str : String) (now stop : time_point) :
    (timer.ctor str none now).output = true ∧
    (timer.ctor str none now).destructor stop ≠ [] ∧
    (∀ b : Bool, (timer.ctor str (some b) now).output = b) ∧
    (timer.ctor_noarg now).output = false ∧
    (timer.ctor_noarg now).destructor stop = [] := by
  refine ⟨rfl, ?_, fun b => rfl, rfl, rfl⟩
  simp [timer.destructor, timer.ctor, timer.reset]

/-- C14: for a timer started at `start` and two successive clock readings
`start ≤ n1 ≤ n2`, `until_now` yields values with `0 ≤ until_now n1 ≤ until_now n2`.
The method is `const`: both calls are made on the same, unchanged timer. -/
theorem until_now_nonneg_and_monotone (self : timer) (n1 n2 : time_point)
    (h0 : self.start ≤ n1) (h12 : n1 ≤ n2) :
    0 ≤ self.until_now n1 ∧ self.until_now n1 ≤ self.until_now n2 := by
  have e1 : (0 : Int) ≤ n1 - self.start := sub_nonneg.mpr h0
  have e2 : (0 : Int) ≤ n2 - self.start := sub_nonneg.mpr (le_trans h0 h12)
  have hle : n1 - self.start ≤ n2 - self.start := sub_le_sub_right h12 _
  unfold timer.until_now
  rw [duration_cast_of_nonneg _ e1, duration_cast_of_nonneg _ e2]
  have d1 : (0 : Int) ≤ (n1 - self.start) / 1000 := Int.ediv_nonneg e1 (by decide)
  have d2 : (n1 - self.start) / 1000 ≤ (n2 - self.start) / 1000 :=
    Int.ediv_le_ediv (by decide) hle
  constructor
  · apply div_nonneg
    · exact_mod_cast d1
    · norm_num
  · apply div_le_div_of_nonneg_right
    · exact_mod_cast d2
    · norm_num

theorem until_now_nonneg_and_monotone_witness :
    (timer.ctor "test" none 1000).start ≤ 2500 ∧ (2500 : time_point) ≤ 7000 ∧
    0 ≤ (timer.ctor "test" none 1000).until_now 2500 ∧
    (timer.ctor "test" none 1000).until_now 2500
      ≤ (timer.ctor "test" none 1000).until_now 7000 :=
  ⟨by decide, by decide,
    until_now_nonneg_and_monotone (timer.ctor "test" none 1000) 2500 7000
      (by decide) (by decide)⟩

/-- C15: `reset` at the clock reading `r` sets `start` to `r` and leaves `str` and `output`
as they were; a following `until_now` at a reading `n ≥ r` yields the whole microseconds of
`n - r`, in seconds (more than `n - r` less one microsecond, at most `n - r`), whatever
`start` was before the reset. -/
theorem reset_discards_elapsed_time (self : timer) (r n previous : time_point) (h : r ≤ n) :
    (self.reset r).start = r ∧
    (self.reset r).str = self.str ∧
    (self.reset r).output = self.output ∧
    (self.reset r).until_now n = (((n - r) / 1000 : Int) : ℚ) / 1000000 ∧
    (((n - r : Int) : ℚ) / 1000000000 - 1 / 1000000 < (self.reset r).until_now n) ∧
    ((self.reset r).until_now n ≤ ((n - r : Int) : ℚ) / 1000000000) ∧
    ((timer.mk self.str previous self.output).reset r).until_now n
      = (self.reset r).until_now n := by
  have e : (0 : Int) ≤ n - r := sub_nonneg.mpr h
  have hval : (self.reset r).until_now n = (((n - r) / 1000 : Int) : ℚ) / 1000000 := by
    simp only [timer.until_now, timer.reset]
    rw [duration_cast_of_nonneg _ e]
  have hlo : (n - r) / 1000 * 1000 ≤ n - r := Int.ediv_mul_le _ (by decide)
  have hhi : n - r < ((n - r) / 1000 + 1) * 1000 :=
    Int.lt_ediv_add_one_mul_self _ (by decide)
  have hlo' : ((((n - r) / 1000 : Int)) : ℚ) * 1000 ≤ ((n - r : Int) : ℚ) := by
    exact_mod_cast hlo
  have hhi' : ((n - r : Int) : ℚ) < (((((n - r) / 1000 : Int)) : ℚ) + 1) * 1000 := by
    exact_mod_cast hhi
  refine ⟨rfl, rfl, rfl, hval, ?_, ?_, rfl⟩
  · rw [hval]; linarith
  · rw [hval]; linarith

theorem reset_discards_elapsed_time_witness :
    ((2000 : time_point) ≤ 9500) ∧
    ((timer.ctor "test" none 1).reset 2000).start = 2000 ∧
    ((timer.ctor "test" none 1).reset 2000).until_now 9500
      = (((9500 - 2000) / 1000 : Int) : ℚ) / 1000000 :=
  ⟨by decide,
    (reset_discards_elapsed_time (timer.ctor "test" none 1) 2000 9500 1 (by decide)).1,
    (reset_discards_elapsed_time (timer.ctor "test" none 1) 2000 9500 1 (by decide)).2.2.2.1⟩

/-- C16 as stated fails: for a timer started at tick 5000, `until_now` at the earlier clock
reading 0 yields -5 microseconds, a negative number of seconds, not zero. -/
theorem until_now_negative_on_regressing_clock :
    (timer.mk "" 5000 false).until_now 0 = -5 / 1000000 ∧
    (timer.mk "" 5000 false).until_now 0 < 0 := by
  have h : (timer.mk "" 5000 false).until_now 0 = -5 / 1000000 := by
    simp only [timer.until_now, zero_sub]
    rw [duration_cast_of_neg _ (by decide)]
    norm_num
  exact ⟨h, by rw [h]; norm_num⟩

/-- C16, amended: for a clock reading `n` earlier than `start`, `until_now` yields the
difference `n - start` truncated toward zero to whole microseconds, in seconds; nothing
clamps it: it is zero only while `start - n` is less than one microsecond, and negative
from one microsecond on. -/
theorem until_now_before_start (self : timer) (n : time_point) (h : n < self.start) :
    self.until_now n = -((((self.start - n) / 1000 : Int) : ℚ) / 1000000) ∧
    self.until_now n ≤ 0 ∧
    (self.start - n < 1000 → self.until_now n = 0) ∧
    (1000 ≤ self.start - n → self.until_now n < 0) := by
  have e : n - self.start ≤ 0 := by linarith
  have hneg : -(n - self.start) = self.start - n := by ring
  have hval : self.until_now n = -((((self.start - n) / 1000 : Int) : ℚ) / 1000000) := by
    unfold timer.until_now
    rw [duration_cast_of_neg _ e, hneg]
    push_cast
    ring
  have hpos : (0 : Int) ≤ self.start - n := by linarith
  have hq : (0 : Int) ≤ (self.start - n) / 1000 := Int.ediv_nonneg hpos (by decide)
  have hq' : (0 : ℚ) ≤ (((self.start - n) / 1000 : Int) : ℚ) := by exact_mod_cast hq
  refine ⟨hval, ?_, ?_, ?_⟩
  · rw [hval]
    have : (0 : ℚ) ≤ (((self.start - n) / 1000 : Int) : ℚ) / 1000000 :=
      div_nonneg hq' (by norm_num)
    linarith
  · intro hlt
    rw [hval, Int.ediv_eq_zero_of_lt hpos hlt]
    norm_num
  · intro hge
    have h1 : (1 : Int) ≤ (self.start - n) / 1000 :=
      Int.le_ediv_of_mul_le (by decide) (by linarith)
    have h1' : (1 : ℚ) ≤ (((self.start - n) / 1000 : Int) : ℚ) := by exact_mod_cast h1
    rw [hval]
    have : (0 : ℚ) < (((self.start - n) / 1000 : Int) : ℚ) / 1000000 :=
      div_pos (by linarith) (by norm_num)
    linarith

theorem until_now_before_start_witness :
    ((0 : time_point) < (timer.mk "" 5000 false).start) ∧
    (timer.mk "" 5000 false).until_now 0
      = -((((((timer.mk "" 5000 false).start - 0) / 1000 : Int)) : ℚ) / 1000000) ∧
    (timer.mk "" 5000 false).until_now 0 ≤ 0 :=
  ⟨by decide, (until_now_before_start (timer.mk "" 5000 false) 0 (by decide)).1,
    (until_now_before_start (timer.mk "" 5000 false) 0 (by decide)).2.1⟩

/-- C17: when a timer's scope ends, the destructor writes to `std::cout` exactly when
`output` is true, and then it writes the elapsed seconds, the text `" <- "`, the message
`str` and one `std::endl`, in that order; with `output` false it writes nothing. -/
theorem destructor_reports_iff_output (self : timer) (now : time_point) :
    (self.destructor now ≠ [] ↔ self.output = true) ∧
    (self.output = true →
      self.destructor now = [stream_item.number (self.until_now now),
        stream_item.text " <- ", stream_item.text self.str, stream_item.endl]) ∧
    (self.output = false → self.destructor now = []) := by
  cases ho : self.output <;> simp [timer.destructor, ho]

/-! ## Exceptions, and what `insert` keeps -/

theorem emplace_sublist (key : time_point) (value : action) (m : action_map) :
    List.Sublist m (emplace key value m) := by
  induction m with
  | nil => exact List.nil_sublist _
  | cons hd tl ih =>
    obtain ⟨k, v⟩ := hd
    simp only [emplace]
    split_ifs with h1 h2
    · exact List.sublist_cons_self _ _
    · exact List.Sublist.refl _
    · exact List.Sublist.cons₂ _ ih

theorem emplace_length_le (key : time_point) (value : action) (m : action_map) :
    (emplace key value m).length ≤ m.length + 1 := by
  induction m with
  | nil => simp [emplace]
  | cons hd tl ih =>
    obtain ⟨k, v⟩ := hd
    simp only [emplace]
    split_ifs with h1 h2
    · simp
    · simp
    · simp only [List.length_cons]; omega

theorem emplace_of_key_mem (key : time_point) (value : action) (m : action_map)
    (hwf : well_formed m) (hk : key ∈ m.map Prod.fst) : emplace key value m = m := by
  induction m with
  | nil => simp at hk
  | cons hd tl ih =>
    obtain ⟨k, v⟩ := hd
    unfold well_formed at hwf ih
    rw [List.pairwise_cons] at hwf
    simp only [List.map_cons, List.mem_cons] at hk
    simp only [emplace]
    rcases hk with hk | hk
    · rw [if_neg (by rw [hk]; exact lt_irrefl _), if_pos hk]
    · obtain ⟨e, he, hke⟩ := List.mem_map.mp hk
      have hlt : k < key := by rw [← hke]; exact hwf.1 e he
      rw [if_neg (not_lt.mpr (le_of_lt hlt)), if_neg (ne_of_gt hlt), ih hwf.2 hk]

theorem emplace_length_of_key_not_mem (key : time_point) (value : action) (m : action_map)
    (hk : key ∉ m.map Prod.fst) : (emplace key value m).length = m.length + 1 := by
  induction m with
  | nil => simp [emplace]
  | cons hd tl ih =>
    obtain ⟨k, v⟩ := hd
    simp only [List.map_cons, List.mem_cons, not_or] at hk
    simp only [emplace]
    rw [if_neg hk.1]
    split_ifs with h1
    · simp
    · simp only [List.length_cons, ih hk.2]

/-- C19: `insert` never changes or removes a pending entry (the old map is a sublist of the
new one, keys and functions as they were) and the number of pending entries grows by at
most one; when the computed `fire_instant` is the key of an entry already pending, the
handler is left exactly as it was, the old function kept and the new one discarded, and
this is also what happens to an `insert` made by the stored function that `update` is
running, whose entry is still in the map, when it computes the key of that very entry. -/
theorem insert_keeps_pending_entries (self : delayed_action_handler) (now : time_point)
    (wait_time : ℚ) (lambda : action) (hwf : well_formed self.actions) :
    List.Sublist self.actions (self.insert now wait_time lambda).actions ∧
    (self.insert now wait_time lambda).actions.length ≤ self.actions.length + 1 ∧
    (fire_instant now wait_time ∈ self.actions.map Prod.fst →
      self.insert now wait_time lambda = self) ∧
    (fire_instant now wait_time ∉ self.actions.map Prod.fst →
      (self.insert now wait_time lambda).actions.length = self.actions.length + 1) ∧
    (∀ (first : time_point) (rest : action_map) (dt : Nat) (next : action),
      self.actions = (first, action.insert dt wait_time lambda next) :: rest →
      fire_instant (now + dt) wait_time = first →
      (call (action.insert dt wait_time lambda next) now self.actions).actions
        = (call next (now + dt) self.actions).actions) := by
  refine ⟨emplace_sublist _ _ _, emplace_length_le _ _ _, ?_, ?_, ?_⟩
  · intro hk
    have := emplace_of_key_mem _ lambda _ hwf hk
    cases self
    simp only [delayed_action_handler.insert] at this ⊢
    rw [this]
  · intro hk
    exact emplace_length_of_key_not_mem _ _ _ hk
  · intro first rest dt next hm hkey
    simp only [call]
    rw [emplace_of_key_mem _ _ _ hwf (by rw [hkey, hm]; simp)]

theorem insert_keeps_pending_entries_witness :
    well_formed [(5000000, action.effect 1 action.ret), (9000000, action.ret)] ∧
    (delayed_action_handler.mk
      [(5000000, action.effect 1 action.ret), (9000000, action.ret)]).insert 4000000
        (1 / 1000) (action.effect 2 action.ret)
      = delayed_action_handler.mk
        [(5000000, action.effect 1 action.ret), (9000000, action.ret)] :=
  ⟨by decide,
    (insert_keeps_pending_entries
      ⟨[(5000000, action.effect 1 action.ret), (9000000, action.ret)]⟩ 4000000 (1 / 1000)
      (action.effect 2 action.ret) (by decide)).2.2.1 (by decide!)⟩

/-- C20 as stated fails: the `float` nearest to 0.29 is 9730785/33554432, less than 0.29;
its product with 1000 is rounded to 290 in single precision, so the entry is stored under
`t + 290 ms`, which is later than `t + d`, while truncating the exact `d*1000` gives 289. -/
theorem rounded_product_exceeds_delay :
    round_float (29 / 100) = 9730785 / 33554432 ∧
    round_float (9730785 / 33554432) = 9730785 / 33554432 ∧
    round_float ((9730785 / 33554432 : ℚ) * 1000) = 290 ∧
    fire_instant 0 (9730785 / 33554432) = 290000000 ∧
    ⌊(9730785 / 33554432 : ℚ) * 1000⌋ = 289 ∧
    ((0 : time_point) : ℚ) + 9730785 / 33554432 * 1000000000
      < ((fire_instant 0 (9730785 / 33554432) : ℤ) : ℚ) := by
  have hf : fire_instant 0 (9730785 / 33554432) = 290000000 := by decide!
  refine ⟨by decide!, by decide!, by decide!, hf, ?_, ?_⟩
  · rw [Int.floor_eq_iff]
    constructor <;> norm_num
  · rw [hf]; norm_num

/-- C20, amended: for every `insert` at clock reading `t` with a `float` delay of `d ≥ 0`
seconds whose single-precision product `d*1000` is within the range of `int`, the entry is
stored under `t` plus that rounded product truncated toward zero, in milliseconds; the key
lies in `(t + d * (1 - 2^-24) - 1 ms, t + d * (1 + 2^-24)]`, and every delay in
`[0, 0.001 s)` is stored under the key `t` itself. -/
theorem insert_key_is_truncated_delay (self : delayed_action_handler) (t : time_point)
    (d : ℚ) (lambda : action) (hd : 0 ≤ d) (hfloat : round_float d = d)
    (hrange : round_float (d * 1000) < 2147483648) :
    (self.insert t d lambda).actions = emplace (fire_instant t d) lambda self.actions ∧
    fire_instant t d ∈ (self.insert t d lambda).actions.map Prod.fst ∧
    float_to_int (round_float (d * 1000)) = ⌊round_float (d * 1000)⌋ ∧
    (0 ≤ float_to_int (round_float (d * 1000)) ∧
      float_to_int (round_float (d * 1000)) < 2147483648) ∧
    fire_instant t d = t + milliseconds (float_to_int (round_float (d * 1000))) ∧
    ((t : ℤ) : ℚ) + (d - d / 16777216) * 1000000000 - 1000000
      < ((fire_instant t d : ℤ) : ℚ) ∧
    ((fire_instant t d : ℤ) : ℚ) ≤ ((t : ℤ) : ℚ) + (d + d / 16777216) * 1000000000 ∧
    (d < 1 / 1000 → fire_instant t d = t) := by
  have hp : (0 : ℚ) ≤ d * 1000 := by positivity
  have hnn : 0 ≤ round_float (d * 1000) := round_float_nonneg _ hp
  have hdp := delay_product_of_float d hfloat
  have hfl : float_to_int (round_float (d * 1000)) = ⌊round_float (d * 1000)⌋ :=
    float_to_int_of_nonneg _ hnn hrange
  have hkey : fire_instant t d = t + milliseconds (float_to_int (round_float (d * 1000))) := by
    unfold fire_instant
    rw [hdp]
  have hf : fire_instant t d = t + ⌊round_float (d * 1000)⌋ * 1000000 := by
    rw [hkey, hfl]; rfl
  obtain ⟨b1, b2⟩ := floor_product_bounds d hd
  refine ⟨rfl, key_mem_emplace _ _ _, hfl, ⟨?_, ?_⟩, hkey, ?_, ?_, ?_⟩
  · rw [hfl]; exact Int.floor_nonneg.mpr hnn
  · rw [hfl, Int.floor_lt]
    exact_mod_cast hrange
  · rw [hf]; push_cast; linarith
  · rw [hf]; push_cast; linarith
  · intro hsmall
    have hlt := small_float_product d hd hfloat hsmall
    have hz : ⌊round_float (d * 1000)⌋ = 0 := by
      rw [Int.floor_eq_iff]
      constructor
      · simpa using hnn
      · push_cast; linarith
    rw [hf, hz]
    simp

theorem insert_key_is_truncated_delay_witness :
    ((0 : ℚ) ≤ 9730785 / 33554432) ∧
    round_float (9730785 / 33554432) = 9730785 / 33554432 ∧
    round_float ((9730785 / 33554432 : ℚ) * 1000) < 2147483648 ∧
    float_to_int (round_float ((9730785 / 33554432 : ℚ) * 1000))
      = ⌊round_float ((9730785 / 33554432 : ℚ) * 1000)⌋ ∧
    fire_instant 10 (9730785 / 33554432)
      = 10 + milliseconds (float_to_int (round_float ((9730785 / 33554432 : ℚ) * 1000))) :=
  ⟨by norm_num, by decide!, by decide!,
    (insert_key_is_truncated_delay ⟨[]⟩ 10 (9730785 / 33554432) action.ret
      (by norm_num) (by decide!) (by decide!)).2.2.1,
    (insert_key_is_truncated_delay ⟨[]⟩ 10 (9730785 / 33554432) action.ret
      (by norm_num) (by decide!) (by decide!)).2.2.2.2.1⟩
